import Mathlib

/-!
Verification of the PowerGenome scenario-settings resolution engine
(`powergenome/util.py`): the dictionary merge engine (`update_dictionary`),
the region-tag expander (`apply_all_tag_to_regions`), parameter-name
normalization (`fix_param_names`), settings loading (`load_settings`),
the duplicate-column check of `check_settings`, and the scenario
expansion engine (`build_scenario_settings`).

YAML settings documents are modelled by the inductive type `PG.Value`;
Python dictionaries become insertion-ordered association lists with the
update semantics of `PG.setKey` (replace in place, else append), which is
exactly how CPython dictionaries behave for the operations this code uses.
-/

namespace PG

/-- A YAML/Python value as manipulated by the settings engine: null, bool,
int, string, pathlib path (a list of path segments), sequence, or mapping.
Mappings are insertion-ordered association lists, as in CPython. -/
inductive Value where
  | null : Value
  | bool : Bool → Value
  | int : Int → Value
  | str : String → Value
  | path : List String → Value
  | list : List Value → Value
  | map : List (String × Value) → Value

/-- Dictionary lookup `d.get(k)` / `d[k]`: first binding wins. -/
def lookupKey {κ α : Type} [DecidableEq κ] : List (κ × α) → κ → Option α
  | [], _ => none
  | (k', v) :: rest, k => if k' = k then some v else lookupKey rest k

/-- Dictionary assignment `d[k] = v`: replace the existing binding in
place, otherwise append at the end (CPython insertion-order semantics). -/
def setKey {κ α : Type} [DecidableEq κ] : List (κ × α) → κ → α → List (κ × α)
  | [], k, v => [(k, v)]
  | (k', v') :: rest, k, v =>
    if k' = k then (k', v) :: rest else (k', v') :: setKey rest k v

/-- Python truthiness of a value (`if settings.get(key):`). -/
def truthy : Value → Bool
  | .null => false
  | .bool b => b
  | .int n => n != 0
  | .str s => s != ""
  | .path _ => true
  | .list l => !l.isEmpty
  | .map m => !m.isEmpty

/-- Python `str.lower()`, restricted to character-wise lowering (the
strings compared against "all" in the source are plain ASCII). -/
def lowerStr (s : String) : String := String.mk (s.data.map Char.toLower)

mutual

/-- The dictionary merge engine `update_dictionary(d, u)` of
`powergenome/util.py` (lines 626-641): iterate over the key/value pairs
of the override `u` in order, updating the accumulated value `d` one
pair at a time via `updateOne`. -/
def update_dictionary : Value → List (String × Value) → Value
  | d, [] => d
  | d, (k, v) :: rest => update_dictionary (updateOne d k v) rest
termination_by structural d u => u

/-- One iteration of the `update_dictionary` loop body: if `d` is a
mapping and the override value is a mapping, recurse into `d.get(k, {})`
and store the result under `k`; if `d` is a mapping and the value is
not, store the value wholesale; if `d` is not a mapping, replace `d` by
the fresh single-entry mapping holding just this pair. -/
def updateOne : Value → String → Value → Value
  | .map entries, k, .map uv =>
    .map (setKey entries k
      (update_dictionary ((lookupKey entries k).getD (.map [])) uv))
  | .map entries, k, v => .map (setKey entries k v)
  | _, k, v => .map [(k, v)]
termination_by structural d _ v => v

end

/-- Whether an association list has pairwise distinct keys, as the key
set of every CPython dictionary does. -/
def nodupKeysB {κ α : Type} [DecidableEq κ] : List (κ × α) → Bool
  | [] => true
  | (k, _) :: rest => (lookupKey rest k).isNone && nodupKeysB rest

mutual

/-- A value is canonical when every mapping inside it has pairwise
distinct keys; every value obtained by parsing YAML is canonical. -/
def canonV : Value → Bool
  | .map m => nodupKeysB m && canonEntries m
  | _ => true
termination_by structural v => v

/-- All values of an association list are canonical. -/
def canonEntries : List (String × Value) → Bool
  | [] => true
  | (_, v) :: rest => canonV v && canonEntries rest
termination_by structural l => l

end

theorem lookupKey_setKey_self {κ α : Type} [DecidableEq κ] (l : List (κ × α)) (k : κ) (v : α) :
    lookupKey (setKey l k v) k = some v := by
  induction l with
  | nil => simp [setKey, lookupKey]
  | cons hd tl ih =>
    obtain ⟨k', v'⟩ := hd
    by_cases h : k' = k
    · simp [setKey, h, lookupKey]
    · simp [setKey, h, lookupKey, ih]

theorem lookupKey_setKey_ne {κ α : Type} [DecidableEq κ] (l : List (κ × α)) {k k' : κ} (v : α)
    (h : k' ≠ k) : lookupKey (setKey l k' v) k = lookupKey l k := by
  induction l with
  | nil => simp [setKey, lookupKey, h]
  | cons hd tl ih =>
    obtain ⟨k₀, v₀⟩ := hd
    by_cases h₀ : k₀ = k'
    · subst h₀
      simp [setKey, lookupKey, h]
    · simp [setKey, h₀, lookupKey, ih]

theorem setKey_of_lookup_none {κ α : Type} [DecidableEq κ] {l : List (κ × α)} {k : κ}
    (h : lookupKey l k = none) (v : α) : setKey l k v = l ++ [(k, v)] := by
  induction l with
  | nil => simp [setKey]
  | cons hd tl ih =>
    obtain ⟨k₀, v₀⟩ := hd
    by_cases h₀ : k₀ = k
    · simp [lookupKey, h₀] at h
    · simp [lookupKey, h₀] at h
      simp [setKey, h₀, ih h]

theorem setKey_of_lookup_self {κ α : Type} [DecidableEq κ] {l : List (κ × α)} {k : κ} {v : α}
    (h : lookupKey l k = some v) : setKey l k v = l := by
  induction l with
  | nil => simp [lookupKey] at h
  | cons hd tl ih =>
    obtain ⟨k₀, v₀⟩ := hd
    by_cases h₀ : k₀ = k
    · simp [lookupKey, h₀] at h
      simp [setKey, h₀, h]
    · simp [lookupKey, h₀] at h
      simp [setKey, h₀, ih h]

theorem setKey_map_fst {κ α : Type} [DecidableEq κ] {l : List (κ × α)} {k : κ}
    (h : (lookupKey l k).isSome) (v : α) :
    (setKey l k v).map Prod.fst = l.map Prod.fst := by
  induction l with
  | nil => simp [lookupKey] at h
  | cons hd tl ih =>
    obtain ⟨k₀, v₀⟩ := hd
    by_cases h₀ : k₀ = k
    · simp [setKey, h₀]
    · simp [lookupKey, h₀] at h
      simp [setKey, h₀, ih h]

theorem lookupKey_append {κ α : Type} [DecidableEq κ] (l₁ l₂ : List (κ × α)) (k : κ) :
    lookupKey (l₁ ++ l₂) k =
      (match lookupKey l₁ k with
        | some v => some v
        | none => lookupKey l₂ k) := by
  induction l₁ with
  | nil => simp [lookupKey]
  | cons hd tl ih =>
    obtain ⟨k₀, v₀⟩ := hd
    by_cases h₀ : k₀ = k
    · simp [lookupKey, h₀]
    · simp [lookupKey, h₀, ih]

theorem lookupKey_isSome_iff {κ α : Type} [DecidableEq κ] (l : List (κ × α)) (k : κ) :
    (lookupKey l k).isSome = true ↔ k ∈ l.map Prod.fst := by
  induction l with
  | nil => simp [lookupKey]
  | cons hd tl ih =>
    obtain ⟨k₀, v₀⟩ := hd
    by_cases h₀ : k₀ = k
    · simp [lookupKey, h₀]
    · simp [lookupKey, h₀, ih, Ne.symm h₀]

theorem update_dictionary_nil (d : Value) : update_dictionary d [] = d := by
  rw [update_dictionary]

theorem update_dictionary_cons (d : Value) (k : String) (v : Value)
    (rest : List (String × Value)) :
    update_dictionary d ((k, v) :: rest) =
      update_dictionary (updateOne d k v) rest := by
  rw [update_dictionary]

theorem updateOne_map_map (m : List (String × Value)) (k : String)
    (uv : List (String × Value)) :
    updateOne (.map m) k (.map uv) =
      .map (setKey m k
        (update_dictionary ((lookupKey m k).getD (.map [])) uv)) := by
  rw [updateOne]

theorem updateOne_map_nonmap (m : List (String × Value)) (k : String)
    {v : Value} (hv : ∀ uv, v ≠ .map uv) :
    updateOne (.map m) k v = .map (setKey m k v) := by
  cases v with
  | map uv => exact absurd rfl (hv uv)
  | null => rw [updateOne] <;> simp
  | bool b => rw [updateOne] <;> simp
  | int n => rw [updateOne] <;> simp
  | str s => rw [updateOne] <;> simp
  | path p => rw [updateOne] <;> simp
  | list l => rw [updateOne] <;> simp

theorem updateOne_nonmap {d : Value} (hd : ∀ mm, d ≠ .map mm) (k : String)
    (v : Value) : updateOne d k v = .map [(k, v)] := by
  cases d with
  | map mm => exact absurd rfl (hd mm)
  | null => cases v <;> rw [updateOne] <;> simp
  | bool b => cases v <;> rw [updateOne] <;> simp
  | int n => cases v <;> rw [updateOne] <;> simp
  | str s => cases v <;> rw [updateOne] <;> simp
  | path p => cases v <;> rw [updateOne] <;> simp
  | list l => cases v <;> rw [updateOne] <;> simp

theorem canonV_map_cons {k : String} {v : Value} {rest : List (String × Value)}
    (h : canonV (.map ((k, v) :: rest)) = true) :
    canonV v = true ∧ canonV (.map rest) = true ∧ (lookupKey rest k).isNone = true := by
  rw [canonV] at h
  rw [canonV]
  simp only [nodupKeysB, canonEntries, Bool.and_eq_true] at h ⊢
  exact ⟨h.2.1, ⟨h.1.2, h.2.2⟩, h.1.1⟩

theorem update_map_disjoint :
    ∀ (n : Nat) (uv : List (String × Value)), sizeOf uv ≤ n →
      canonV (.map uv) = true →
      ∀ (m : List (String × Value)), (∀ k ∈ uv.map Prod.fst, lookupKey m k = none) →
      update_dictionary (.map m) uv = .map (m ++ uv) := by
  intro n
  induction n with
  | zero =>
    intro uv hsize
    cases uv <;> simp at hsize
  | succ n ih =>
    intro uv hsize hcanon m hdisj
    match uv with
    | [] => simp [update_dictionary_nil]
    | (k, v) :: rest =>
      obtain ⟨hcv, hcrest, hnd⟩ := canonV_map_cons hcanon
      have hmk : lookupKey m k = none := hdisj k (by simp)
      have hrest_size : sizeOf rest ≤ n := by
        simp only [List.cons.sizeOf_spec] at hsize
        omega
      have hdisj' : ∀ k' ∈ rest.map Prod.fst, lookupKey (m ++ [(k, v)]) k' = none := by
        intro k' hk'
        have hne : k' ≠ k := by
          intro he
          subst he
          rw [← lookupKey_isSome_iff] at hk'
          simp [Option.isNone_iff_eq_none] at hnd
          simp [hnd] at hk'
        rw [lookupKey_append]
        rw [hdisj k' (by simp [hk'])]
        simp [lookupKey, Ne.symm hne]
      have hstep : update_dictionary (.map m) ((k, v) :: rest) =
          update_dictionary (.map (m ++ [(k, v)])) rest := by
        rw [update_dictionary_cons]
        congr 1
        cases v with
        | map w =>
          rw [updateOne_map_map, hmk]
          have hw_size : sizeOf w ≤ n := by
            simp only [List.cons.sizeOf_spec, Prod.mk.sizeOf_spec,
              Value.map.sizeOf_spec] at hsize
            omega
          have hw : update_dictionary (.map ([] : List (String × Value))) w =
              .map ([] ++ w) := ih w hw_size hcv [] (by simp [lookupKey])
          simp only [Option.getD_none]
          rw [hw]
          simp only [List.nil_append]
          rw [setKey_of_lookup_none hmk]
        | null => rw [updateOne_map_nonmap _ _ (by intro uv h; cases h),
            setKey_of_lookup_none hmk]
        | bool b => rw [updateOne_map_nonmap _ _ (by intro uv h; cases h),
            setKey_of_lookup_none hmk]
        | int i => rw [updateOne_map_nonmap _ _ (by intro uv h; cases h),
            setKey_of_lookup_none hmk]
        | str s => rw [updateOne_map_nonmap _ _ (by intro uv h; cases h),
            setKey_of_lookup_none hmk]
        | path p => rw [updateOne_map_nonmap _ _ (by intro uv h; cases h),
            setKey_of_lookup_none hmk]
        | list l => rw [updateOne_map_nonmap _ _ (by intro uv h; cases h),
            setKey_of_lookup_none hmk]
      rw [hstep, ih rest hrest_size hcrest (m ++ [(k, v)]) hdisj']
      simp

/-- Merging a canonical override into the empty mapping reproduces the
override itself. -/
theorem update_empty_map (uv : List (String × Value)) (h : canonV (.map uv) = true) :
    update_dictionary (.map []) uv = .map uv := by
  have := update_map_disjoint (sizeOf uv) uv le_rfl h [] (by simp [lookupKey])
  simpa using this

/-- Merging a canonical non-empty override mapping into a non-mapping
value rebuilds the override. -/
theorem update_nonmap {b : Value} (hb : ∀ mm, b ≠ .map mm)
    (uv : List (String × Value)) (hc : canonV (.map uv) = true) (hne : uv ≠ []) :
    update_dictionary b uv = .map uv := by
  match uv with
  | [] => exact absurd rfl hne
  | (k, v) :: rest =>
    obtain ⟨hcv, hcrest, hnd⟩ := canonV_map_cons hc
    have hstep : update_dictionary b ((k, v) :: rest) =
        update_dictionary (.map [(k, v)]) rest := by
      rw [update_dictionary_cons, updateOne_nonmap hb]
    rw [hstep]
    have hdisj : ∀ k' ∈ rest.map Prod.fst, lookupKey [(k, v)] k' = none := by
      intro k' hk'
      have hne' : k' ≠ k := by
        intro he
        subst he
        rw [← lookupKey_isSome_iff] at hk'
        simp [Option.isNone_iff_eq_none] at hnd
        simp [hnd] at hk'
      simp [lookupKey, Ne.symm hne']
    have := update_map_disjoint (sizeOf rest) rest le_rfl hcrest [(k, v)] hdisj
    rw [this]
    simp

/-- Specification-side description of what `update_dictionary` stores
under one overridden key, given the base's previous value (if any) and
the override value.  This follows the spec's merge contract, amended to
match the code on one point: when the override value is a mapping it is
always merged recursively (into the base value when that is a mapping,
into a fresh empty mapping when the key is absent), so overriding a
non-mapping base value with an EMPTY mapping keeps the base value. -/
def updateKeySpec (b? : Option Value) (v : Value) : Value :=
  match v with
  | .map uv =>
    match b? with
    | none => .map uv
    | some (.map bm) => update_dictionary (.map bm) uv
    | some b =>
      match uv with
      | [] => b
      | _ => .map uv
  | _ => v

theorem updateKeySpec_nonmap {v : Value} (hv : ∀ uv, v ≠ .map uv)
    (b? : Option Value) : updateKeySpec b? v = v := by
  cases v with
  | map uv => exact absurd rfl (hv uv)
  | null => simp [updateKeySpec]
  | bool b => simp [updateKeySpec]
  | int n => simp [updateKeySpec]
  | str s => simp [updateKeySpec]
  | path p => simp [updateKeySpec]
  | list l => simp [updateKeySpec]

theorem updateKeySpec_some_nonmap {b : Value} (hb : ∀ mm, b ≠ .map mm)
    (uv : List (String × Value)) :
    updateKeySpec (some b) (.map uv) =
      (match uv with | [] => b | _ => .map uv) := by
  cases b with
  | map mm => exact absurd rfl (hb mm)
  | null => simp [updateKeySpec]
  | bool x => simp [updateKeySpec]
  | int x => simp [updateKeySpec]
  | str x => simp [updateKeySpec]
  | path x => simp [updateKeySpec]
  | list x => simp [updateKeySpec]

theorem updateKeySpec_eq_update {b : Value} (hb : ∀ mm, b ≠ .map mm)
    {uv : List (String × Value)} (hc : canonV (.map uv) = true) :
    update_dictionary b uv = updateKeySpec (some b) (.map uv) := by
  rw [updateKeySpec_some_nonmap hb]
  cases uv with
  | nil => exact update_dictionary_nil b
  | cons p ps => exact update_nonmap hb _ hc (by simp)

/-- Per-key characterization of the merge engine on mappings: the merged
mapping binds exactly the keys of base and override, with the override's
keys resolved through `updateKeySpec` and all other keys untouched. -/
theorem update_map_lookup :
    ∀ (u : List (String × Value)), canonV (.map u) = true →
      ∀ (m : List (String × Value)), ∃ m',
        update_dictionary (.map m) u = .map m' ∧
        ∀ k, lookupKey m' k =
          (match lookupKey u k with
            | none => lookupKey m k
            | some v => some (updateKeySpec (lookupKey m k) v)) := by
  intro u
  induction u with
  | nil =>
    intro _ m
    exact ⟨m, update_dictionary_nil _, by intro k; simp [lookupKey]⟩
  | cons hd rest ih =>
    obtain ⟨k₀, v₀⟩ := hd
    intro hc m
    obtain ⟨hcv, hcrest, hnd⟩ := canonV_map_cons hc
    have hkey : ∃ m₁, updateOne (.map m) k₀ v₀ = .map m₁ ∧
        lookupKey m₁ k₀ = some (updateKeySpec (lookupKey m k₀) v₀) ∧
        ∀ k, k ≠ k₀ → lookupKey m₁ k = lookupKey m k := by
      cases v₀ with
      | map uv =>
        refine ⟨_, updateOne_map_map m k₀ uv, ?_, ?_⟩
        · rw [lookupKey_setKey_self]
          congr 1
          cases hmk : lookupKey m k₀ with
          | none =>
            simp only [Option.getD_none]
            rw [update_empty_map uv hcv, updateKeySpec]
          | some b =>
            cases b with
            | map bm => rw [updateKeySpec]; rfl
            | null => exact updateKeySpec_eq_update (by intro mm h; cases h) hcv
            | bool x => exact updateKeySpec_eq_update (by intro mm h; cases h) hcv
            | int x => exact updateKeySpec_eq_update (by intro mm h; cases h) hcv
            | str x => exact updateKeySpec_eq_update (by intro mm h; cases h) hcv
            | path x => exact updateKeySpec_eq_update (by intro mm h; cases h) hcv
            | list x => exact updateKeySpec_eq_update (by intro mm h; cases h) hcv
        · intro k hk
          exact lookupKey_setKey_ne _ _ (Ne.symm hk)
      | null =>
        exact ⟨_, updateOne_map_nonmap m k₀ (by intro uv h; cases h),
          by rw [lookupKey_setKey_self, updateKeySpec_nonmap (by intro uv h; cases h)],
          fun k hk => lookupKey_setKey_ne _ _ (Ne.symm hk)⟩
      | bool x =>
        exact ⟨_, updateOne_map_nonmap m k₀ (by intro uv h; cases h),
          by rw [lookupKey_setKey_self, updateKeySpec_nonmap (by intro uv h; cases h)],
          fun k hk => lookupKey_setKey_ne _ _ (Ne.symm hk)⟩
      | int x =>
        exact ⟨_, updateOne_map_nonmap m k₀ (by intro uv h; cases h),
          by rw [lookupKey_setKey_self, updateKeySpec_nonmap (by intro uv h; cases h)],
          fun k hk => lookupKey_setKey_ne _ _ (Ne.symm hk)⟩
      | str x =>
        exact ⟨_, updateOne_map_nonmap m k₀ (by intro uv h; cases h),
          by rw [lookupKey_setKey_self, updateKeySpec_nonmap (by intro uv h; cases h)],
          fun k hk => lookupKey_setKey_ne _ _ (Ne.symm hk)⟩
      | path x =>
        exact ⟨_, updateOne_map_nonmap m k₀ (by intro uv h; cases h),
          by rw [lookupKey_setKey_self, updateKeySpec_nonmap (by intro uv h; cases h)],
          fun k hk => lookupKey_setKey_ne _ _ (Ne.symm hk)⟩
      | list x =>
        exact ⟨_, updateOne_map_nonmap m k₀ (by intro uv h; cases h),
          by rw [lookupKey_setKey_self, updateKeySpec_nonmap (by intro uv h; cases h)],
          fun k hk => lookupKey_setKey_ne _ _ (Ne.symm hk)⟩
    obtain ⟨m₁, hone, hhead, hother⟩ := hkey
    obtain ⟨m', hupd, hlook⟩ := ih hcrest m₁
    refine ⟨m', ?_, ?_⟩
    · rw [update_dictionary_cons, hone, hupd]
    · intro k
      by_cases hk : k = k₀
      · subst hk
        have hrest_none : lookupKey rest k = none := by
          rwa [Option.isNone_iff_eq_none] at hnd
        rw [hlook k, hrest_none]
        simp only [lookupKey, if_pos rfl]
        exact hhead
      · rw [hlook k]
        have hcons : lookupKey ((k₀, v₀) :: rest) k = lookupKey rest k := by
          simp [lookupKey, Ne.symm hk]
        rw [hcons]
        cases hr : lookupKey rest k with
        | none => exact hother k hk
        | some v => rw [hother k hk]

/-- C2 (amended).  For every pair of mappings (base, override) with the
override canonical (distinct keys, as Python dicts guarantee): the merge
recurses elementwise into keys whose override values are mappings — using
the base value when it is a mapping and an empty mapping when the key is
absent — and replaces values wholesale when the override value is not a
mapping; a NON-EMPTY override mapping also replaces a non-mapping base
value wholesale, but an EMPTY override mapping leaves a non-mapping base
value unchanged (the point on which the original claim fails).  The two
concrete examples from the spec hold as stated. -/
theorem claim_C2_amended :
    (∀ (u m : List (String × Value)), canonV (.map u) = true →
      ∃ m', update_dictionary (.map m) u = .map m' ∧
        ∀ k, lookupKey m' k =
          (match lookupKey u k with
            | none => lookupKey m k
            | some v => some (updateKeySpec (lookupKey m k) v)))
    ∧ update_dictionary (.map [("a", .map [("x", .int 1), ("y", .int 2)])])
        [("a", .map [("y", .int 3)])]
        = .map [("a", .map [("x", .int 1), ("y", .int 3)])]
    ∧ update_dictionary (.map [("a", .map [("x", .int 1), ("y", .int 2)])])
        [("a", .list [.int 9])]
        = .map [("a", .list [.int 9])] := by
  refine ⟨fun u m hc => update_map_lookup u hc m, rfl, rfl⟩

/-- C2 (counterexample).  Merging the override mapping with value `{}`
under key "a" into the base `{"a": 5}` keeps `5`: the code recurses
because the OVERRIDE value is a mapping (it never checks the base side),
and merging an empty override returns the base value unchanged — whereas
the claim requires wholesale replacement (yielding `{"a": {}}`) whenever
the two sides are not both mappings. -/
theorem claim_C2_counterexample :
    update_dictionary (.map [("a", .int 5)]) [("a", .map [])]
      = .map [("a", .int 5)]
    ∧ Value.int 5 ≠ Value.map [] :=
  ⟨rfl, fun h => Value.noConfusion h⟩

/-- C2 (witness): the general clause of `claim_C2_amended` instantiated
at a concrete base and override. -/
theorem claim_C2_witness :
    ∃ m', update_dictionary (.map [("b", .int 1)]) [("c", .int 2)] = .map m' ∧
      ∀ k, lookupKey m' k =
        (match lookupKey [("c", Value.int 2)] k with
          | none => lookupKey [("b", Value.int 1)] k
          | some v => some (updateKeySpec (lookupKey [("b", Value.int 1)] k) v)) :=
  claim_C2_amended.1 [("c", .int 2)] [("b", .int 1)] rfl

mutual

/-- Python `str(v)` for the values a renewables-cluster entry can hold.
Strings print bare, booleans as True/False, None as None; containers are
rendered in Python's bracketed style (string escaping inside containers
is not modelled — the identifier fields this is applied to are scalars). -/
def pyStr : Value → String
  | .null => "None"
  | .bool b => if b then "True" else "False"
  | .int n => toString n
  | .str s => s
  | .path segs => "/".intercalate segs
  | .list l => "[" ++ pyStrList l ++ "]"
  | .map m => "\x7b" ++ pyStrMap m ++ "\x7d"
termination_by structural v => v

/-- Comma-separated `repr` rendering of a Python list body. -/
def pyStrList : List Value → String
  | [] => ""
  | [.str s] => "\x27" ++ s ++ "\x27"
  | [v] => pyStr v
  | .str s :: rest => "\x27" ++ s ++ "\x27" ++ ", " ++ pyStrList rest
  | v :: rest => pyStr v ++ ", " ++ pyStrList rest
termination_by structural l => l

/-- Comma-separated `repr` rendering of a Python dict body. -/
def pyStrMap : List (String × Value) → String
  | [] => ""
  | [(k, .str s)] => "\x27" ++ k ++ "\x27: " ++ "\x27" ++ s ++ "\x27"
  | [(k, v)] => "\x27" ++ k ++ "\x27: " ++ pyStr v
  | (k, .str s) :: rest =>
    "\x27" ++ k ++ "\x27: " ++ "\x27" ++ s ++ "\x27" ++ ", " ++ pyStrMap rest
  | (k, v) :: rest => "\x27" ++ k ++ "\x27: " ++ pyStr v ++ ", " ++ pyStrMap rest
termination_by structural l => l

end

/-- Lexicographic character-list comparison, the order Python's `sorted`
uses on the ASCII key strings at hand. -/
def charListLe : List Char → List Char → Bool
  | [], _ => true
  | _ :: _, [] => false
  | a :: as, b :: bs => if a < b then true else if b < a then false else charListLe as bs

/-- Whether string `a` sorts no later than string `b`. -/
def strLe (a b : String) : Bool := charListLe a.data b.data

/-- Insert a string into an already sorted list of strings. -/
def insertSorted (s : String) : List String → List String
  | [] => [s]
  | x :: xs => if strLe s x then s :: x :: xs else x :: insertSorted s xs

/-- Python `sorted(keys)` via insertion sort. -/
def sortKeys : List String → List String
  | [] => []
  | x :: xs => insertSorted x (sortKeys xs)

/-- The fields of a renewables-cluster entry that contribute to its
identity key (`identifier_keys` in `apply_all_tag_to_regions`). -/
def identifier_keys : List String := ["technology", "pref_site", "turbine_type"]

/-- The identity key (`tech` in the source) of a renewables-cluster
entry: iterate over the entry's keys in sorted order and concatenate
`str(d[key])` for every identifier field, joined with underscores. -/
def identKey (d : List (String × Value)) : String :=
  (sortKeys (d.map Prod.fst)).foldl
    (fun tech key =>
      if key ∈ identifier_keys then
        (if tech != "" then tech ++ "_" else tech) ++ pyStr ((lookupKey d key).getD .null)
      else tech) ""

/-- The entry's `region` field when it is a string. -/
def regionStr (e : List (String × Value)) : Option String :=
  match lookupKey e "region" with
  | some (.str r) => some r
  | _ => none

/-- Whether the entry carries the wildcard region tag
(`reg.lower() == "all"`). -/
def isWildB (e : List (String × Value)) : Bool :=
  match regionStr e with
  | some r => lowerStr r == "all"
  | none => false

/-- Whether the entry names a concrete (non-wildcard) region. -/
def isExplicitB (e : List (String × Value)) : Bool :=
  match regionStr e with
  | some r => lowerStr r != "all"
  | none => false

/-- Failure modes of `apply_all_tag_to_regions` (KeyError / TypeError in
the source, by cause). -/
inductive RegionError where
  | missingRegionTag
  | regionNotString
  | missingTechnology (reg : String)
  | missingModelRegions
  | badModelRegions
  | badClusters

/-- The loop state of `apply_all_tag_to_regions`: `techs_tagged_w_all`,
`techs_tagged_by_region` and `settings_all` from the source. -/
structure ScanState where
  taggedAll : List String
  taggedByRegion : List (String × List String)
  templates : List (String × List (String × Value))

/-- One iteration of the entry scan of `apply_all_tag_to_regions`
(lines 144-184), for one entry `d`: read its `region` tag (KeyError when
absent), compute its identity key, record the region in
`techs_tagged_by_region` (appending to an existing record; a first
occurrence starts at `[]` for a wildcard and `[reg]` otherwise).  A
wildcard entry must carry `technology` (KeyError otherwise), becomes the
template for its identity key (last one wins), marks the key as
wildcard-tagged, and is dropped from the kept list; any other entry is
kept in order. -/
def scanStep (st : ScanState) (kept : List (List (String × Value)))
    (d : List (String × Value)) :
    Except RegionError (ScanState × List (List (String × Value))) :=
  match lookupKey d "region" with
  | none => .error .missingRegionTag
  | some (.str reg) =>
    let tech := identKey d
    let tbr :=
      match lookupKey st.taggedByRegion tech with
      | some regs => setKey st.taggedByRegion tech (regs ++ [reg])
      | none =>
        if lowerStr reg == "all" then setKey st.taggedByRegion tech []
        else setKey st.taggedByRegion tech [reg]
    if lowerStr reg == "all" then
      if (lookupKey d "technology").isNone then .error (.missingTechnology reg)
      else
        .ok (⟨(if tech ∈ st.taggedAll then st.taggedAll else st.taggedAll ++ [tech]),
          tbr, setKey st.templates tech d⟩, kept)
    else .ok (⟨st.taggedAll, tbr, st.templates⟩, kept ++ [d])
  | some _ => .error .regionNotString

/-- The entry scan of `apply_all_tag_to_regions` (lines 144-184): walk
the entries in order applying `scanStep`; the second component collects
(in order) exactly the non-wildcard entries, i.e. the list left after
the marked-for-deletion indices of the source are removed. -/
def scanEntries :
    ScanState × List (List (String × Value)) → List (List (String × Value)) →
    Except RegionError (ScanState × List (List (String × Value)))
  | (st, kept), [] => .ok (st, kept)
  | (st, kept), d :: rest =>
    match scanStep st kept d with
    | .error e => .error e
    | .ok (st₁, kept₁) => scanEntries (st₁, kept₁) rest

/-- The expansion loop of `apply_all_tag_to_regions` (lines 189-195):
after the wildcard entries are removed, append — for every identity key
that had a wildcard template, for every model region not already claimed
for that key — a copy of the template with its `region` set to that
model region. -/
def expandAll (st : ScanState) (all_regions : List String)
    (kept : List (List (String × Value))) : List (List (String × Value)) :=
  kept ++ st.taggedAll.flatMap (fun tech =>
    (all_regions.filter
        (fun reg => decide (reg ∉ (lookupKey st.taggedByRegion tech).getD []))).map
      (fun reg => setKey ((lookupKey st.templates tech).getD []) "region" (.str reg)))

/-- Region-tag expansion on an entry list: scan, delete wildcards, then
append the per-region copies.  This is the core of
`apply_all_tag_to_regions` acting on `settings["renewables_clusters"]`. -/
def expandClusters (all_regions : List String)
    (entries : List (List (String × Value))) :
    Except RegionError (List (List (String × Value))) :=
  match scanEntries (⟨[], [], []⟩, []) entries with
  | .error e => .error e
  | .ok (st, kept) => .ok (expandAll st all_regions kept)

/-- Parse a YAML sequence of strings (the `model_regions` list). -/
def parseStrList : List Value → Option (List String)
  | [] => some []
  | .str s :: rest => (parseStrList rest).map (fun l => s :: l)
  | _ => none

/-- Parse a YAML sequence of mappings (the `renewables_clusters` list). -/
def parseEntryList : List Value → Option (List (List (String × Value)))
  | [] => some []
  | .map m :: rest => (parseEntryList rest).map (fun l => m :: l)
  | _ => none

/-- `apply_all_tag_to_regions(settings)` of `powergenome/util.py` (lines
106-197) on the settings mapping: read `settings["model_regions"]`
(KeyError when absent; the model is restricted to a list of strings),
run the scan/expand over `settings.get("renewables_clusters", []) or []`
(a falsy or absent value leaves the settings untouched), and store the
rewritten entry list back under the same key. -/
def apply_all_tag_to_regions (settings : List (String × Value)) :
    Except RegionError (List (String × Value)) :=
  match lookupKey settings "model_regions" with
  | some (.list rvs) =>
    match parseStrList rvs with
    | some all_regions =>
      match lookupKey settings "renewables_clusters" with
      | some v =>
        if truthy v then
          match v with
          | .list evs =>
            match parseEntryList evs with
            | some entries =>
              match expandClusters all_regions entries with
              | .ok out =>
                .ok (setKey settings "renewables_clusters"
                  (.list (out.map Value.map)))
              | .error e => .error e
            | none => .error .badClusters
          | _ => .error .badClusters
        else .ok settings
      | none => .ok settings
    | none => .error .badModelRegions
  | some _ => .error .badModelRegions
  | none => .error .missingModelRegions

theorem regionStr_of_lookup {d : List (String × Value)} {r : String}
    (h : lookupKey d "region" = some (.str r)) : regionStr d = some r := by
  rw [regionStr, h]

theorem lookup_of_regionStr {d : List (String × Value)} {r : String}
    (h : regionStr d = some r) : lookupKey d "region" = some (.str r) := by
  unfold regionStr at h
  split at h
  · simp_all
  · simp at h

theorem isWildB_of_regionStr {d : List (String × Value)} {r : String}
    (h : regionStr d = some r) : isWildB d = (lowerStr r == "all") := by
  rw [isWildB, h]

theorem isExplicitB_of_regionStr {d : List (String × Value)} {r : String}
    (h : regionStr d = some r) : isExplicitB d = (lowerStr r != "all") := by
  rw [isExplicitB, h]

/-- What one scan step does to the loop state, entry by entry. -/
theorem scanStep_spec {st : ScanState} {kept : List (List (String × Value))}
    {d : List (String × Value)} {st₁ : ScanState}
    {kept₁ : List (List (String × Value))}
    (h : scanStep st kept d = .ok (st₁, kept₁)) :
    (∃ r, regionStr d = some r)
    ∧ kept₁ = kept ++ (if isExplicitB d then [d] else [])
    ∧ (∀ t, t ∈ st₁.taggedAll ↔
        t ∈ st.taggedAll ∨ (isWildB d = true ∧ identKey d = t))
    ∧ (st.taggedAll.Nodup → st₁.taggedAll.Nodup)
    ∧ (∀ t r, lowerStr r ≠ "all" →
        (r ∈ (lookupKey st₁.taggedByRegion t).getD [] ↔
          r ∈ (lookupKey st.taggedByRegion t).getD [] ∨
          (isExplicitB d = true ∧ identKey d = t ∧ regionStr d = some r)))
    ∧ (∀ t, (isWildB d = true ∧ identKey d = t ∧
          lookupKey st₁.templates t = some d ∧
          (lookupKey d "technology").isSome = true)
        ∨ (lookupKey st₁.templates t = lookupKey st.templates t ∧
          ¬(isWildB d = true ∧ identKey d = t))) := by
  unfold scanStep at h
  cases hlook : lookupKey d "region" with
  | none => rw [hlook] at h; exact Except.noConfusion h
  | some v =>
    rw [hlook] at h
    cases v with
    | null => exact Except.noConfusion h
    | bool x => exact Except.noConfusion h
    | int x => exact Except.noConfusion h
    | path x => exact Except.noConfusion h
    | list x => exact Except.noConfusion h
    | map x => exact Except.noConfusion h
    | str reg =>
      have hreg : regionStr d = some reg := regionStr_of_lookup hlook
      simp only [] at h
      by_cases hall : lowerStr reg = "all"
      · -- wildcard entry
        have hwild : isWildB d = true := by
          rw [isWildB_of_regionStr hreg]
          simp [hall]
        have hexp : isExplicitB d = false := by
          rw [isExplicitB_of_regionStr hreg]
          simp [hall]
        rw [if_pos (by simp [hall])] at h
        by_cases htech : (lookupKey d "technology").isNone
        · rw [if_pos htech] at h
          exact Except.noConfusion h
        · rw [if_neg htech] at h
          have hts : (lookupKey d "technology").isSome = true := by
            cases hc : lookupKey d "technology" with
            | none => rw [hc] at htech; simp at htech
            | some _ => simp
          obtain ⟨hst, hkept⟩ : st₁ =
              ⟨(if identKey d ∈ st.taggedAll then st.taggedAll
                  else st.taggedAll ++ [identKey d]),
                (match lookupKey st.taggedByRegion (identKey d) with
                  | some regs => setKey st.taggedByRegion (identKey d) (regs ++ [reg])
                  | none =>
                    if lowerStr reg == "all" then
                      setKey st.taggedByRegion (identKey d) []
                    else setKey st.taggedByRegion (identKey d) [reg]),
                setKey st.templates (identKey d) d⟩ ∧ kept₁ = kept := by
            cases h
            exact ⟨rfl, rfl⟩
          subst hst hkept
          refine ⟨⟨reg, hreg⟩, by simp [hexp], ?_, ?_, ?_, ?_⟩
          · intro t
            simp only [hwild, true_and]
            by_cases hmem : identKey d ∈ st.taggedAll
            · rw [if_pos hmem]
              constructor
              · exact fun hm => Or.inl hm
              · rintro (hm | rfl)
                · exact hm
                · exact hmem
            · rw [if_neg hmem]
              simp [List.mem_append, eq_comm]
          · intro hnd
            by_cases hmem : identKey d ∈ st.taggedAll
            · rwa [if_pos hmem]
            · rw [if_neg hmem]
              simp [List.nodup_append, hnd, hmem]
          · intro t r hr
            simp only [hexp, false_and, or_false, Bool.false_eq_true]
            have hrne : r ≠ reg := fun he => hr (he ▸ hall)
            by_cases ht : t = identKey d
            · subst ht
              cases hcase : lookupKey st.taggedByRegion (identKey d) with
              | some regs =>
                simp [hcase, lookupKey_setKey_self, List.mem_append, hrne]
              | none =>
                simp [hcase, hall, lookupKey_setKey_self]
            · have ht₂ : identKey d ≠ t := fun he => ht he.symm
              have hset : ∀ (x : List String),
                  lookupKey (setKey st.taggedByRegion (identKey d) x) t =
                    lookupKey st.taggedByRegion t :=
                fun x => lookupKey_setKey_ne _ _ ht₂
              cases hcase : lookupKey st.taggedByRegion (identKey d) with
              | some regs => simp [hcase, hset]
              | none => simp [hcase, hall, hset]
          · intro t
            by_cases ht : t = identKey d
            · subst ht
              exact Or.inl ⟨hwild, rfl, lookupKey_setKey_self _ _ _, hts⟩
            · exact Or.inr ⟨lookupKey_setKey_ne _ _ (fun he => ht (he.symm)),
                fun hc => ht hc.2.symm⟩
      · -- explicit entry
        have hwild : isWildB d = false := by
          rw [isWildB_of_regionStr hreg]
          simp [hall]
        have hexp : isExplicitB d = true := by
          rw [isExplicitB_of_regionStr hreg]
          simp [hall]
        rw [if_neg (by simp [hall])] at h
        obtain ⟨hst, hkept⟩ : st₁ =
            ⟨st.taggedAll,
              (match lookupKey st.taggedByRegion (identKey d) with
                | some regs => setKey st.taggedByRegion (identKey d) (regs ++ [reg])
                | none =>
                  if lowerStr reg == "all" then
                    setKey st.taggedByRegion (identKey d) []
                  else setKey st.taggedByRegion (identKey d) [reg]),
              st.templates⟩ ∧ kept₁ = kept ++ [d] := by
          cases h
          exact ⟨rfl, rfl⟩
        subst hst hkept
        refine ⟨⟨reg, hreg⟩, by simp [hexp], by simp [hwild], fun hnd => hnd, ?_,
          fun t => Or.inr ⟨rfl, by simp [hwild]⟩⟩
        intro t r hr
        simp only [hexp, true_and]
        have hregsome : (regionStr d = some r) ↔ r = reg := by
          rw [hreg]
          simp [eq_comm]
        by_cases ht : t = identKey d
        · subst ht
          cases hcase : lookupKey st.taggedByRegion (identKey d) with
          | some regs =>
            simp [hcase, lookupKey_setKey_self, List.mem_append, hregsome]
          | none =>
            simp [hcase, hall, lookupKey_setKey_self, hregsome]
        · have ht₂ : identKey d ≠ t := fun he => ht he.symm
          have hset : ∀ (x : List String),
              lookupKey (setKey st.taggedByRegion (identKey d) x) t =
                lookupKey st.taggedByRegion t :=
            fun x => lookupKey_setKey_ne _ _ ht₂
          cases hcase : lookupKey st.taggedByRegion (identKey d) with
          | some regs => simp [hcase, hset, ht₂]
          | none => simp [hcase, hall, hset, ht₂]

/-- Functional characterization of the whole entry scan: on success, the
kept list is the input's explicit entries in order; an identity key is
wildcard-tagged iff some wildcard entry has it; the tagged list stays
duplicate-free; a non-wildcard region is claimed for an identity key iff
some explicit entry claims it; and every wildcard-tagged key's template
is one of the input's wildcard entries for that key (carrying a
`technology` field). -/
theorem scanEntries_spec :
    ∀ (l : List (List (String × Value))) (st : ScanState)
      (kept : List (List (String × Value))) (st' : ScanState)
      (kept' : List (List (String × Value))),
      scanEntries (st, kept) l = .ok (st', kept') →
      kept' = kept ++ l.filter isExplicitB
      ∧ (∀ t, t ∈ st'.taggedAll ↔
          t ∈ st.taggedAll ∨ ∃ e ∈ l, isWildB e = true ∧ identKey e = t)
      ∧ (st.taggedAll.Nodup → st'.taggedAll.Nodup)
      ∧ (∀ t r, lowerStr r ≠ "all" →
          (r ∈ (lookupKey st'.taggedByRegion t).getD [] ↔
            r ∈ (lookupKey st.taggedByRegion t).getD [] ∨
            ∃ e ∈ l, isExplicitB e = true ∧ identKey e = t ∧ regionStr e = some r))
      ∧ (∀ t,
          (∃ e ∈ l, isWildB e = true ∧ identKey e = t ∧
            lookupKey st'.templates t = some e ∧
            (lookupKey e "technology").isSome = true)
          ∨ (lookupKey st'.templates t = lookupKey st.templates t ∧
             ¬ ∃ e ∈ l, isWildB e = true ∧ identKey e = t)) := by
  intro l
  induction l with
  | nil =>
    intro st kept st' kept' h
    rw [scanEntries] at h
    cases h
    refine ⟨by simp, by simp, fun hn => hn, by simp, ?_⟩
    intro t
    exact Or.inr ⟨rfl, by simp⟩
  | cons d rest ih =>
    intro st kept st' kept' h
    rw [scanEntries] at h
    cases hstep : scanStep st kept d with
    | error e => rw [hstep] at h; exact Except.noConfusion h
    | ok p =>
      obtain ⟨st₁, kept₁⟩ := p
      rw [hstep] at h
      obtain ⟨-, hk, hta, hnd, htbr, htm⟩ := scanStep_spec hstep
      obtain ⟨ihk, ihta, ihnd, ihtbr, ihtm⟩ := ih st₁ kept₁ st' kept' h
      refine ⟨?_, ?_, fun hn => ihnd (hnd hn), ?_, ?_⟩
      · rw [ihk, hk]
        by_cases he : isExplicitB d
        · simp [List.filter_cons, he]
        · simp [List.filter_cons, he]
      · intro t
        rw [ihta t, hta t]
        constructor
        · rintro ((h1 | ⟨hw, hi⟩) | ⟨e, he, hw, hi⟩)
          · exact Or.inl h1
          · exact Or.inr ⟨d, List.mem_cons_self _ _, hw, hi⟩
          · exact Or.inr ⟨e, List.mem_cons_of_mem _ he, hw, hi⟩
        · rintro (h1 | ⟨e, he, hw, hi⟩)
          · exact Or.inl (Or.inl h1)
          · rcases List.mem_cons.mp he with rfl | he'
            · exact Or.inl (Or.inr ⟨hw, hi⟩)
            · exact Or.inr ⟨e, he', hw, hi⟩
      · intro t r hr
        rw [ihtbr t r hr, htbr t r hr]
        constructor
        · rintro ((h1 | ⟨he2, hi, hrs⟩) | ⟨e, he, p⟩)
          · exact Or.inl h1
          · exact Or.inr ⟨d, List.mem_cons_self _ _, he2, hi, hrs⟩
          · exact Or.inr ⟨e, List.mem_cons_of_mem _ he, p⟩
        · rintro (h1 | ⟨e, he, p⟩)
          · exact Or.inl (Or.inl h1)
          · rcases List.mem_cons.mp he with rfl | he'
            · exact Or.inl (Or.inr p)
            · exact Or.inr ⟨e, he', p⟩
      · intro t
        rcases ihtm t with ⟨e, he, hw, hi, hl, hts⟩ | ⟨heq, hno⟩
        · exact Or.inl ⟨e, List.mem_cons_of_mem _ he, hw, hi, hl, hts⟩
        · rcases htm t with ⟨hw, hi, hl, hts⟩ | ⟨heq₂, hno₂⟩
          · exact Or.inl ⟨d, List.mem_cons_self _ _, hw, hi, heq.trans hl, hts⟩
          · refine Or.inr ⟨heq.trans heq₂, ?_⟩
            rintro ⟨e, he, hw, hi⟩
            rcases List.mem_cons.mp he with rfl | he'
            · exact hno₂ ⟨hw, hi⟩
            · exact hno ⟨e, he', hw, hi⟩

/-- Whether an entry is the one for identity key `t` and region `r`. -/
def pairPred (t r : String) (e : List (String × Value)) : Bool :=
  (identKey e == t) && (regionStr e == some r)

theorem pairPred_iff (t r : String) (e : List (String × Value)) :
    pairPred t r e = true ↔ identKey e = t ∧ regionStr e = some r := by
  simp [pairPred]

theorem isWildB_region {e : List (String × Value)} (h : isWildB e = true) :
    ∃ r, regionStr e = some r ∧ lowerStr r = "all" := by
  unfold isWildB at h
  split at h
  · next r heq => exact ⟨r, heq, by simpa using h⟩
  · simp at h

theorem isExplicitB_region {e : List (String × Value)} (h : isExplicitB e = true) :
    ∃ r, regionStr e = some r ∧ lowerStr r ≠ "all" := by
  unfold isExplicitB at h
  split at h
  · next r heq => exact ⟨r, heq, by simpa using h⟩
  · simp at h

theorem not_wild_and_explicit {e : List (String × Value)}
    (hw : isWildB e = true) (hx : isExplicitB e = true) : False := by
  obtain ⟨r, hre, hall⟩ := isWildB_region hw
  rw [isExplicitB_of_regionStr hre] at hx
  simp [hall] at hx

theorem countP_flatMap {α β : Type} (p : β → Bool) (f : α → List β)
    (l : List α) :
    (l.flatMap f).countP p = (l.map fun a => (f a).countP p).sum := by
  induction l with
  | nil => simp
  | cons a l ih => simp [List.countP_append, ih]

theorem sum_map_single (g : String → Nat) (l : List String) (t : String)
    (hnd : l.Nodup) (h0 : ∀ a ∈ l, a ≠ t → g a = 0) :
    (l.map g).sum = if t ∈ l then g t else 0 := by
  induction l with
  | nil => simp
  | cons a l ih =>
    rw [List.nodup_cons] at hnd
    by_cases hat : a = t
    · subst hat
      have hz : (l.map g).sum = 0 := by
        apply List.sum_eq_zero
        intro x hx
        rw [List.mem_map] at hx
        obtain ⟨b, hb, rfl⟩ := hx
        exact h0 b (List.mem_cons_of_mem _ hb)
          (fun he => hnd.1 (he ▸ hb))
      simp [hz]
    · have hg : g a = 0 := h0 a (List.mem_cons_self _ _) hat
      rw [List.map_cons, List.sum_cons, hg,
        ih hnd.2 (fun b hb => h0 b (List.mem_cons_of_mem _ hb))]
      simp [Ne.symm hat, hat]

theorem identKey_setKey_region {tmpl : List (String × Value)}
    (h : (lookupKey tmpl "region").isSome) (v : Value) :
    identKey (setKey tmpl "region" v) = identKey tmpl := by
  unfold identKey
  rw [setKey_map_fst h]
  congr 1
  funext tech key
  by_cases hk : key ∈ identifier_keys
  · have hne : "region" ≠ key := by
      intro he
      subst he
      revert hk
      decide
    rw [if_pos hk, if_pos hk, lookupKey_setKey_ne _ _ hne]
  · rw [if_neg hk, if_neg hk]

theorem regionStr_setKey_region (tmpl : List (String × Value)) (r : String) :
    regionStr (setKey tmpl "region" (.str r)) = some r := by
  rw [regionStr, lookupKey_setKey_self]

/-- Count of `(t, r)` entries among the per-region copies generated from
one wildcard template. -/
theorem countP_copies (t r tech : String) (tmpl : List (String × Value))
    (regions claimed : List String) (hnd : regions.Nodup)
    (hreg : (lookupKey tmpl "region").isSome) (hik : identKey tmpl = tech) :
    ((regions.filter (fun reg => decide (reg ∉ claimed))).map
        (fun reg => setKey tmpl "region" (.str reg))).countP (pairPred t r)
      = if t = tech ∧ r ∈ regions ∧ r ∉ claimed then 1 else 0 := by
  rw [List.countP_map]
  have hpt : ∀ reg : String,
      (pairPred t r ∘ fun reg => setKey tmpl "region" (.str reg)) reg =
        ((tech == t) && (reg == r)) := by
    intro reg
    simp only [Function.comp_apply, pairPred, identKey_setKey_region hreg, hik,
      regionStr_setKey_region]
    simp [Option.some.injEq]
  rw [show (pairPred t r ∘ fun reg => setKey tmpl "region" (.str reg)) =
      (fun reg : String => (tech == t) && (reg == r)) from funext hpt]
  by_cases ht : t = tech
  · subst ht
    simp only [beq_self_eq_true, Bool.true_and]
    have : (regions.filter (fun reg => decide (reg ∉ claimed))).countP
        (fun reg : String => reg == r) =
        (regions.filter (fun reg => decide (reg ∉ claimed))).count r := rfl
    rw [this]
    by_cases hin : r ∈ regions ∧ r ∉ claimed
    · have hmem : r ∈ regions.filter (fun reg => decide (reg ∉ claimed)) := by
        rw [List.mem_filter]
        exact ⟨hin.1, by simp [hin.2]⟩
      rw [List.count_eq_one_of_mem (hnd.filter _) hmem]
      simp [hin]
    · have hnotmem : r ∉ regions.filter (fun reg => decide (reg ∉ claimed)) := by
        rw [List.mem_filter]
        intro ⟨h1, h2⟩
        exact hin ⟨h1, by simpa using h2⟩
      rw [List.count_eq_zero_of_not_mem hnotmem]
      simp [hin]
  · have hne : tech ≠ t := fun he => ht he.symm
    have hzero : ∀ reg : String, ((tech == t) && (reg == r)) = false := by
      intro reg
      simp [hne]
    simp [List.countP_eq_zero, hzero, ht]

theorem expandClusters_decomp {regions : List String}
    {l out : List (List (String × Value))}
    (h : expandClusters regions l = .ok out) :
    ∃ st kept, scanEntries (⟨[], [], []⟩, []) l = .ok (st, kept) ∧
      out = expandAll st regions kept := by
  unfold expandClusters at h
  cases hscan : scanEntries (⟨[], [], []⟩, []) l with
  | error e => rw [hscan] at h; exact Except.noConfusion h
  | ok p =>
    obtain ⟨st, kept⟩ := p
    rw [hscan] at h
    cases h
    exact ⟨st, kept, rfl, rfl⟩

/-- `scanEntries_spec` specialized to the empty initial state used by
`expandClusters`. -/
theorem scanEntries_spec₀ {l : List (List (String × Value))} {st' : ScanState}
    {kept' : List (List (String × Value))}
    (h : scanEntries (⟨[], [], []⟩, []) l = .ok (st', kept')) :
    kept' = l.filter isExplicitB
    ∧ (∀ t, t ∈ st'.taggedAll ↔ ∃ e ∈ l, isWildB e = true ∧ identKey e = t)
    ∧ st'.taggedAll.Nodup
    ∧ (∀ t r, lowerStr r ≠ "all" →
        (r ∈ (lookupKey st'.taggedByRegion t).getD [] ↔
          ∃ e ∈ l, isExplicitB e = true ∧ identKey e = t ∧ regionStr e = some r))
    ∧ (∀ t, t ∈ st'.taggedAll →
        ∃ e ∈ l, isWildB e = true ∧ identKey e = t ∧
          lookupKey st'.templates t = some e ∧
          (lookupKey e "technology").isSome = true) := by
  obtain ⟨hk, hta, hnd, htbr, htm⟩ := scanEntries_spec l _ _ _ _ h
  refine ⟨by simpa using hk, ?_, hnd (by simp), ?_, ?_⟩
  · intro t
    rw [hta t]
    simp
  · intro t r hr
    rw [htbr t r hr]
    simp [lookupKey]
  · intro t ht
    rcases htm t with ⟨e, he, hw, hi, hl, hts⟩ | ⟨-, hno⟩
    · exact ⟨e, he, hw, hi, hl, hts⟩
    · exact absurd ((hta t).mp ht) (by simpa using hno)

/-- Exact count of `(t, r)` entries after expansion, for a region `r`
that is not spelled like the wildcard: the explicit matches of the
input, plus one generated copy exactly when `t` had a wildcard template,
`r` is a model region, and no explicit entry claimed `(t, r)`. -/
theorem expandClusters_countP {regions : List String}
    {l out : List (List (String × Value))}
    (h : expandClusters regions l = .ok out) (hndr : regions.Nodup)
    (t r : String) (hra : lowerStr r ≠ "all") :
    out.countP (pairPred t r) =
      l.countP (fun e => isExplicitB e && pairPred t r e) +
      (if (∃ e ∈ l, isWildB e = true ∧ identKey e = t) ∧ r ∈ regions ∧
          ¬ (∃ e ∈ l, isExplicitB e = true ∧ identKey e = t ∧
            regionStr e = some r)
        then 1 else 0) := by
  obtain ⟨st, kept, hscan, hout⟩ := expandClusters_decomp h
  obtain ⟨hk, hta, hnd, htbr, htm⟩ := scanEntries_spec₀ hscan
  subst hout hk
  unfold expandAll
  rw [List.countP_append]
  have hkept : (l.filter isExplicitB).countP (pairPred t r) =
      l.countP (fun e => isExplicitB e && pairPred t r e) := by
    rw [List.countP_filter]
    congr 1
    funext e
    rw [Bool.and_comm]
  rw [hkept]
  congr 1
  rw [countP_flatMap]
  have hg0 : ∀ tech ∈ st.taggedAll, tech ≠ t →
      ((regions.filter
          (fun reg => decide (reg ∉ (lookupKey st.taggedByRegion tech).getD []))).map
        (fun reg =>
          setKey ((lookupKey st.templates tech).getD []) "region" (.str reg))).countP
        (pairPred t r) = 0 := by
    intro tech htech hne
    obtain ⟨e, he, hw, hi, hl, hts⟩ := htm tech htech
    obtain ⟨ρ, hρ, -⟩ := isWildB_region hw
    have hrs : (lookupKey e "region").isSome = true := by
      rw [lookup_of_regionStr hρ]
      simp
    rw [hl]
    simp only [Option.getD_some]
    rw [countP_copies t r tech e regions _ hndr hrs hi]
    have hne' : t ≠ tech := Ne.symm hne
    simp [hne']
  rw [sum_map_single _ _ t hnd hg0]
  by_cases hmem : t ∈ st.taggedAll
  · rw [if_pos hmem]
    obtain ⟨e, he, hw, hi, hl, hts⟩ := htm t hmem
    obtain ⟨ρ, hρ, -⟩ := isWildB_region hw
    have hrs : (lookupKey e "region").isSome = true := by
      rw [lookup_of_regionStr hρ]
      simp
    rw [hl]
    simp only [Option.getD_some]
    rw [countP_copies t r t e regions _ hndr hrs hi]
    have hwild : ∃ e ∈ l, isWildB e = true ∧ identKey e = t := (hta t).mp hmem
    have hclaim : r ∈ (lookupKey st.taggedByRegion t).getD [] ↔
        ∃ e ∈ l, isExplicitB e = true ∧ identKey e = t ∧ regionStr e = some r :=
      htbr t r hra
    by_cases hex : ∃ e ∈ l, isExplicitB e = true ∧ identKey e = t ∧
        regionStr e = some r
    · rw [if_neg (by simp [hclaim.mpr hex]), if_neg (by simp [hex])]
    · by_cases hrin : r ∈ regions
      · rw [if_pos ⟨rfl, hrin, fun hc => hex (hclaim.mp hc)⟩,
          if_pos ⟨hwild, hrin, hex⟩]
      · rw [if_neg (by simp [hrin]), if_neg (by simp [hrin])]
  · rw [if_neg hmem]
    have hnw : ¬ ∃ e ∈ l, isWildB e = true ∧ identKey e = t :=
      fun hc => hmem ((hta t).mpr hc)
    rw [if_neg (by simp [hnw])]

/-- Even without any well-spelledness assumption on `r`, the expansion
appends at most one copy for each `(t, r)` pair. -/
theorem expandClusters_le {regions : List String}
    {l out : List (List (String × Value))}
    (h : expandClusters regions l = .ok out) (hndr : regions.Nodup)
    (t r : String) :
    out.countP (pairPred t r) ≤
      l.countP (fun e => isExplicitB e && pairPred t r e) + 1 := by
  obtain ⟨st, kept, hscan, hout⟩ := expandClusters_decomp h
  obtain ⟨hk, hta, hnd, htbr, htm⟩ := scanEntries_spec₀ hscan
  subst hout hk
  unfold expandAll
  rw [List.countP_append]
  have hkept : (l.filter isExplicitB).countP (pairPred t r) =
      l.countP (fun e => isExplicitB e && pairPred t r e) := by
    rw [List.countP_filter]
    congr 1
    funext e
    rw [Bool.and_comm]
  rw [hkept]
  have hcopies : (st.taggedAll.flatMap (fun tech =>
      (regions.filter
          (fun reg => decide (reg ∉ (lookupKey st.taggedByRegion tech).getD []))).map
        (fun reg =>
          setKey ((lookupKey st.templates tech).getD []) "region"
            (.str reg)))).countP (pairPred t r) ≤ 1 := by
    rw [countP_flatMap]
    have hg0 : ∀ tech ∈ st.taggedAll, tech ≠ t →
        ((regions.filter
            (fun reg => decide (reg ∉ (lookupKey st.taggedByRegion tech).getD []))).map
          (fun reg =>
            setKey ((lookupKey st.templates tech).getD []) "region"
              (.str reg))).countP (pairPred t r) = 0 := by
      intro tech htech hne
      obtain ⟨e, he, hw, hi, hl, hts⟩ := htm tech htech
      obtain ⟨ρ, hρ, -⟩ := isWildB_region hw
      have hrs : (lookupKey e "region").isSome = true := by
        rw [lookup_of_regionStr hρ]
        simp
      rw [hl]
      simp only [Option.getD_some]
      rw [countP_copies t r tech e regions _ hndr hrs hi]
      have hne' : t ≠ tech := Ne.symm hne
      simp [hne']
    rw [sum_map_single _ _ t hnd hg0]
    by_cases hmem : t ∈ st.taggedAll
    · rw [if_pos hmem]
      obtain ⟨e, he, hw, hi, hl, hts⟩ := htm t hmem
      obtain ⟨ρ, hρ, -⟩ := isWildB_region hw
      have hrs : (lookupKey e "region").isSome = true := by
        rw [lookup_of_regionStr hρ]
        simp
      rw [hl]
      simp only [Option.getD_some]
      rw [countP_copies t r t e regions _ hndr hrs hi]
      split
      · exact le_refl 1
      · exact Nat.zero_le 1
    · rw [if_neg hmem]
      exact Nat.zero_le 1
  omega

/-- C3 (amended).  After region-tag expansion, for every identity key
that had a wildcard template, there is exactly one entry per configured
model region — the original explicit entry where one was present, and
otherwise an appended copy of the template with its region field set —
PROVIDED the model-region list has no duplicates and no member spelled
like the wildcard, and the input has at most one explicit entry per
(identity key, region) pair (the duplicates on which the original claim
fails). -/
theorem claim_C3_amended :
    ∀ (regions : List String) (l out : List (List (String × Value))) (t r : String),
    expandClusters regions l = .ok out →
    regions.Nodup →
    (∀ ρ ∈ regions, lowerStr ρ ≠ "all") →
    (∀ t' r', l.countP (fun e => isExplicitB e && pairPred t' r' e) ≤ 1) →
    (∃ e ∈ l, isWildB e = true ∧ identKey e = t) →
    r ∈ regions →
    out.countP (pairPred t r) = 1
    ∧ (∀ e ∈ l, isExplicitB e = true → pairPred t r e = true → e ∈ out)
    ∧ ((¬ ∃ e ∈ l, isExplicitB e = true ∧ pairPred t r e = true) →
        ∃ tmpl ∈ l, isWildB tmpl = true ∧ identKey tmpl = t ∧
          setKey tmpl "region" (.str r) ∈ out) := by
  intro regions l out t r hok hnd hreg hbound hwild hrin
  have hra : lowerStr r ≠ "all" := hreg r hrin
  have hcount := expandClusters_countP hok hnd t r hra
  refine ⟨?_, ?_, ?_⟩
  · by_cases hex : ∃ e ∈ l, isExplicitB e = true ∧ identKey e = t ∧
        regionStr e = some r
    · rw [hcount, if_neg (by simp [hex])]
      have hpos : 0 < l.countP (fun e => isExplicitB e && pairPred t r e) := by
        rw [List.countP_pos]
        obtain ⟨e, he, hx, hi, hrs⟩ := hex
        exact ⟨e, he, by simp [hx, (pairPred_iff t r e).mpr ⟨hi, hrs⟩]⟩
      have hle := hbound t r
      omega
    · rw [hcount, if_pos ⟨hwild, hrin, hex⟩]
      have hzero : l.countP (fun e => isExplicitB e && pairPred t r e) = 0 := by
        rw [List.countP_eq_zero]
        intro e he
        simp only [Bool.and_eq_true, not_and]
        intro hx hp
        obtain ⟨hi, hrs⟩ := (pairPred_iff t r e).mp hp
        exact hex ⟨e, he, hx, hi, hrs⟩
      rw [hzero]
  · intro e he hx hp
    obtain ⟨st, kept, hscan, hout⟩ := expandClusters_decomp hok
    obtain ⟨hk, -, -, -, -⟩ := scanEntries_spec₀ hscan
    subst hout hk
    unfold expandAll
    exact List.mem_append_left _ (List.mem_filter.mpr ⟨he, hx⟩)
  · intro hnoex
    obtain ⟨st, kept, hscan, hout⟩ := expandClusters_decomp hok
    obtain ⟨hk, hta, hndta, htbr, htm⟩ := scanEntries_spec₀ hscan
    subst hout hk
    have hmem : t ∈ st.taggedAll := (hta t).mpr hwild
    obtain ⟨tmpl, htmem, htw, hti, htl, hts⟩ := htm t hmem
    refine ⟨tmpl, htmem, htw, hti, ?_⟩
    unfold expandAll
    apply List.mem_append_right
    rw [List.mem_flatMap]
    refine ⟨t, hmem, ?_⟩
    rw [htl]
    simp only [Option.getD_some]
    rw [List.mem_map]
    refine ⟨r, ?_, rfl⟩
    rw [List.mem_filter]
    refine ⟨hrin, ?_⟩
    simp only [decide_eq_true_eq]
    intro hcl
    obtain ⟨e, he, hx, hi, hrs⟩ := (htbr t r hra).mp hcl
    exact hnoex ⟨e, he, hx, (pairPred_iff t r e).mpr ⟨hi, hrs⟩⟩

/-- A duplicated explicit entry used by the C3/C5 counterexamples. -/
def dupEntry : List (String × Value) := [("region", .str "r1"), ("technology", .str "t")]

/-- A wildcard entry with the same identity key as `dupEntry`. -/
def dupWild : List (String × Value) := [("region", .str "all"), ("technology", .str "t")]

/-- C3 (counterexample).  With the explicit entry for (technology `t`,
region `r1`) duplicated in the input, identity key "t" still has a
wildcard template, yet after expansion region `r1` carries TWO entries
for it, not exactly one as the claim requires. -/
theorem claim_C3_counterexample :
    expandClusters ["r1"] [dupEntry, dupEntry, dupWild] = .ok [dupEntry, dupEntry]
    ∧ isWildB dupWild = true ∧ identKey dupWild = "t"
    ∧ ([dupEntry, dupEntry].countP (pairPred "t" "r1")) = 2 :=
  ⟨rfl, rfl, rfl, rfl⟩

/-- Input entries for the C3/C5/C6 witnesses: one explicit entry for
region "A" plus a wildcard, over model regions "A" and "B". -/
def witEntryA : List (String × Value) := [("region", .str "A"), ("technology", .str "s")]

/-- The wildcard entry of the witness input. -/
def witWild : List (String × Value) := [("region", .str "all"), ("technology", .str "s")]

theorem witness_input_bound :
    ∀ t' r', ([witEntryA, witWild].countP
      (fun e => isExplicitB e && pairPred t' r' e)) ≤ 1 := by
  intro t' r'
  have hw : isExplicitB witWild = false := rfl
  simp [List.countP_cons, hw]
  split <;> simp

/-- C3 (witness): the amended theorem applied to a concrete input — one
explicit entry for region "A", one wildcard, model regions ["A", "B"],
identity key "s", region "B". -/
theorem claim_C3_witness :
    ([witEntryA, [("region", .str "B"), ("technology", .str "s")]].countP
        (pairPred "s" "B")) = 1
    ∧ (∀ e ∈ [witEntryA, witWild], isExplicitB e = true →
        pairPred "s" "B" e = true →
        e ∈ [witEntryA, [("region", .str "B"), ("technology", .str "s")]])
    ∧ ((¬ ∃ e ∈ [witEntryA, witWild], isExplicitB e = true ∧
          pairPred "s" "B" e = true) →
        ∃ tmpl ∈ [witEntryA, witWild], isWildB tmpl = true ∧ identKey tmpl = "s" ∧
          setKey tmpl "region" (.str "B") ∈
            [witEntryA, [("region", .str "B"), ("technology", .str "s")]]) :=
  claim_C3_amended ["A", "B"] [witEntryA, witWild]
    [witEntryA, [("region", .str "B"), ("technology", .str "s")]] "s" "B"
    rfl (by decide) (by decide) witness_input_bound
    ⟨witWild, by simp, rfl, rfl⟩ (by decide)

/-- Unconditional no-overwrite/no-copy property: whenever the input
holds an explicit entry for the pair (t, r), the region `r` is recorded
as claimed for `t` during the scan, so the expansion loop's filter
generates no copy for (t, r) — for ANY model-region list, duplicates
and all — and the expanded list holds exactly the input's explicit
(t, r) entries. -/
theorem expandClusters_explicit_exact {regions : List String}
    {l out : List (List (String × Value))}
    (h : expandClusters regions l = .ok out) (t r : String)
    {e : List (String × Value)} (he : e ∈ l) (hx : isExplicitB e = true)
    (hp : pairPred t r e = true) :
    out.countP (pairPred t r) =
      (l.filter isExplicitB).countP (pairPred t r) := by
  obtain ⟨hi, hrs⟩ := (pairPred_iff t r e).mp hp
  obtain ⟨ρ, hρ, hρne⟩ := isExplicitB_region hx
  have hra : lowerStr r ≠ "all" := by
    rw [hrs] at hρ
    cases hρ
    exact hρne
  obtain ⟨st, kept, hscan, hout⟩ := expandClusters_decomp h
  obtain ⟨hk, hta, hnd, htbr, htm⟩ := scanEntries_spec₀ hscan
  subst hout hk
  unfold expandAll
  rw [List.countP_append]
  have hclaimed : r ∈ (lookupKey st.taggedByRegion t).getD [] :=
    (htbr t r hra).mpr ⟨e, he, hx, hi, hrs⟩
  have hz : (st.taggedAll.flatMap (fun tech =>
      (regions.filter
          (fun reg => decide (reg ∉ (lookupKey st.taggedByRegion tech).getD []))).map
        (fun reg =>
          setKey ((lookupKey st.templates tech).getD []) "region"
            (.str reg)))).countP (pairPred t r) = 0 := by
    rw [List.countP_eq_zero]
    intro x hxin
    rw [List.mem_flatMap] at hxin
    obtain ⟨tech, htech, hxin⟩ := hxin
    rw [List.mem_map] at hxin
    obtain ⟨reg, hregmem, rfl⟩ := hxin
    rw [List.mem_filter] at hregmem
    obtain ⟨hregin, hnotcl⟩ := hregmem
    have hnotcl₂ : reg ∉ (lookupKey st.taggedByRegion tech).getD [] :=
      of_decide_eq_true hnotcl
    obtain ⟨e₂, he₂, hw₂, hi₂, hl₂, hts₂⟩ := htm tech htech
    obtain ⟨ρ₂, hρ₂, -⟩ := isWildB_region hw₂
    have hreg₂ : (lookupKey e₂ "region").isSome = true := by
      rw [lookup_of_regionStr hρ₂]
      rfl
    rw [hl₂]
    simp only [Option.getD_some]
    intro hpx
    obtain ⟨hix, hrx⟩ := (pairPred_iff t r _).mp hpx
    rw [regionStr_setKey_region] at hrx
    have hregr : reg = r := Option.some.inj hrx
    rw [identKey_setKey_region hreg₂, hi₂] at hix
    subst hix
    subst hregr
    exact hnotcl₂ hclaimed
  rw [hz]
  omega

/-- C5 (amended).  After region-tag expansion: (a) no (identity key,
region) pair appears more than once PROVIDED the model-region list has
no duplicates and the input has at most one explicit entry per pair (the
duplicates on which the original claim fails); and (b) unconditionally —
for every input entry list and every model-region list — an explicitly
tagged region's entry is never overwritten or duplicated by the
wildcard's expansion: whenever an explicit entry for (t, r) is in the
input, the expanded list holds exactly the explicit (t, r) entries of
the input, with no generated copy added. -/
theorem claim_C5_amended :
    (∀ (regions : List String) (l out : List (List (String × Value))) (t r : String),
      expandClusters regions l = .ok out →
      regions.Nodup →
      (∀ t' r', l.countP (fun e => isExplicitB e && pairPred t' r' e) ≤ 1) →
      out.countP (pairPred t r) ≤ 1)
    ∧ (∀ (regions : List String) (l out : List (List (String × Value)))
        (t r : String) (e : List (String × Value)),
      expandClusters regions l = .ok out →
      e ∈ l → isExplicitB e = true → pairPred t r e = true →
      out.countP (pairPred t r) =
        (l.filter isExplicitB).countP (pairPred t r)) := by
  constructor
  · intro regions l out t r hok hnd hbound
    by_cases hex : ∃ e ∈ l, isExplicitB e = true ∧ identKey e = t ∧
        regionStr e = some r
    · obtain ⟨e, he, hx, hi, hrs⟩ := hex
      obtain ⟨ρ, hρ, hρne⟩ := isExplicitB_region hx
      have hra : lowerStr r ≠ "all" := by
        rw [hrs] at hρ
        cases hρ
        exact hρne
      rw [expandClusters_countP hok hnd t r hra,
        if_neg (fun hc => hc.2.2 ⟨e, he, hx, hi, hrs⟩)]
      simpa using hbound t r
    · have hzero : l.countP (fun e => isExplicitB e && pairPred t r e) = 0 := by
        rw [List.countP_eq_zero]
        intro e he
        simp only [Bool.and_eq_true, not_and]
        intro hx hp
        obtain ⟨hi, hrs⟩ := (pairPred_iff t r e).mp hp
        exact hex ⟨e, he, hx, hi, hrs⟩
      have hle := expandClusters_le hok hnd t r
      omega
  · intro regions l out t r e hok he hx hp
    exact expandClusters_explicit_exact hok t r he hx hp

/-- C5 (counterexample).  A duplicated explicit entry survives expansion
twice: the identity-key/region pair ("t", "r1") appears twice in the
output, so "no pair appears more than once" fails for this input. -/
theorem claim_C5_counterexample :
    expandClusters ["r1"] [dupEntry, dupEntry] = .ok [dupEntry, dupEntry]
    ∧ ([dupEntry, dupEntry].countP (pairPred "t" "r1")) = 2 :=
  ⟨rfl, rfl⟩

/-- C5 (witness): both clauses of the amended theorem applied to the
concrete witness input. -/
theorem claim_C5_witness :
    ([witEntryA, [("region", .str "B"), ("technology", .str "s")]].countP
        (pairPred "s" "A")) ≤ 1
    ∧ ([witEntryA, [("region", .str "B"), ("technology", .str "s")]].countP
        (pairPred "s" "A")) =
      ([witEntryA, witWild].filter isExplicitB).countP (pairPred "s" "A") :=
  ⟨claim_C5_amended.1 ["A", "B"] [witEntryA, witWild]
      [witEntryA, [("region", .str "B"), ("technology", .str "s")]] "s" "A"
      rfl (by decide) witness_input_bound,
    claim_C5_amended.2 ["A", "B"] [witEntryA, witWild]
      [witEntryA, [("region", .str "B"), ("technology", .str "s")]] "s" "A"
      witEntryA rfl (by simp) rfl (by decide)⟩

theorem scanEntries_ok_of_explicit :
    ∀ (l : List (List (String × Value))) (st : ScanState)
      (kept : List (List (String × Value))),
      (∀ e ∈ l, isExplicitB e = true) →
      ∃ p, scanEntries (st, kept) l = .ok p := by
  intro l
  induction l with
  | nil => exact fun st kept _ => ⟨(st, kept), by rw [scanEntries]⟩
  | cons d rest ih =>
    intro st kept hall
    obtain ⟨r, hre, hrne⟩ := isExplicitB_region (hall d (List.mem_cons_self _ _))
    have hsok : ∃ q, scanStep st kept d = .ok q := by
      simp only [scanStep, lookup_of_regionStr hre]
      rw [if_neg (by simp [hrne])]
      exact ⟨_, rfl⟩
    obtain ⟨⟨st₂, kept₂⟩, hq⟩ := hsok
    obtain ⟨p, hp⟩ := ih st₂ kept₂ (fun e he => hall e (List.mem_cons_of_mem _ he))
    rw [scanEntries, hq]
    exact ⟨p, hp⟩

/-- After one successful expansion pass, every entry of the output names
a concrete region, provided no model region is spelled like the
wildcard. -/
theorem expandClusters_out_explicit {regions : List String}
    {l out : List (List (String × Value))}
    (h : expandClusters regions l = .ok out)
    (hreg : ∀ ρ ∈ regions, lowerStr ρ ≠ "all") :
    ∀ e ∈ out, isExplicitB e = true := by
  obtain ⟨st, kept, hscan, hout⟩ := expandClusters_decomp h
  obtain ⟨hk, hta, hnd, htbr, htm⟩ := scanEntries_spec₀ hscan
  subst hout hk
  intro e he
  unfold expandAll at he
  rcases List.mem_append.mp he with hk | hcp
  · exact (List.mem_filter.mp hk).2
  · rw [List.mem_flatMap] at hcp
    obtain ⟨tech, htech, hcp⟩ := hcp
    rw [List.mem_map] at hcp
    obtain ⟨ρ, hρ, rfl⟩ := hcp
    rw [List.mem_filter] at hρ
    have : regionStr (setKey ((lookupKey st.templates tech).getD [])
        "region" (.str ρ)) = some ρ := regionStr_setKey_region _ ρ
    rw [isExplicitB_of_regionStr this]
    simp [hreg ρ hρ.1]

/-- Core idempotence: a second expansion pass over an already expanded
entry list succeeds and returns it unchanged. -/
theorem expandClusters_idem {regions : List String}
    {l out : List (List (String × Value))}
    (h : expandClusters regions l = .ok out)
    (hreg : ∀ ρ ∈ regions, lowerStr ρ ≠ "all") :
    expandClusters regions out = .ok out := by
  have hx : ∀ e ∈ out, isExplicitB e = true := expandClusters_out_explicit h hreg
  obtain ⟨⟨st', kept'⟩, hq⟩ := scanEntries_ok_of_explicit out ⟨[], [], []⟩ [] hx
  obtain ⟨hk, hta, -, -, -⟩ := scanEntries_spec₀ hq
  have hkept : kept' = out := by
    rw [hk, List.filter_eq_self.mpr hx]
  have htaggedAll : st'.taggedAll = [] := by
    rw [List.eq_nil_iff_forall_not_mem]
    intro t ht
    obtain ⟨e, he, hw, -⟩ := (hta t).mp ht
    exact not_wild_and_explicit hw (hx e he)
  have hstep : expandClusters regions out = .ok (expandAll st' regions kept') := by
    unfold expandClusters
    rw [hq]
  rw [hstep]
  unfold expandAll
  rw [htaggedAll, hkept]
  simp

theorem parseEntryList_map (l : List (List (String × Value))) :
    parseEntryList (l.map Value.map) = some l := by
  induction l with
  | nil => rfl
  | cons e rest ih => simp [parseEntryList, ih]

/-- C6 (amended).  Region-tag expansion is idempotent — applying
`apply_all_tag_to_regions` to its own output returns that output
unchanged — PROVIDED no configured model region is spelled "all"
case-insensitively (when one is, the generated copy for it is itself a
wildcard entry, a second pass re-expands it, and idempotence fails —
the point on which the original claim breaks). -/
theorem claim_C6_amended :
    ∀ (s s' : List (String × Value)) (rv : List Value) (regions : List String),
    apply_all_tag_to_regions s = .ok s' →
    lookupKey s "model_regions" = some (.list rv) →
    parseStrList rv = some regions →
    (∀ ρ ∈ regions, lowerStr ρ ≠ "all") →
    apply_all_tag_to_regions s' = .ok s' := by
  intro s s' rv regions h hmr hparse hreg
  unfold apply_all_tag_to_regions at h
  simp only [hmr, hparse] at h
  cases hcl : lookupKey s "renewables_clusters" with
  | none =>
    simp only [hcl] at h
    cases h
    unfold apply_all_tag_to_regions
    simp only [hmr, hparse, hcl]
  | some v =>
    simp only [hcl] at h
    by_cases htr : truthy v
    · rw [if_pos htr] at h
      cases v with
      | null => exact Except.noConfusion h
      | bool b => exact Except.noConfusion h
      | int n => exact Except.noConfusion h
      | str x => exact Except.noConfusion h
      | path p => exact Except.noConfusion h
      | map m => exact Except.noConfusion h
      | list evs =>
        cases hpe : parseEntryList evs with
        | none =>
          simp only [hpe] at h
          exact Except.noConfusion h
        | some entries =>
          simp only [hpe] at h
          cases hec : expandClusters regions entries with
          | error e =>
            simp only [hec] at h
            exact Except.noConfusion h
          | ok out =>
            simp only [hec] at h
            cases h
            unfold apply_all_tag_to_regions
            have hmr' : lookupKey (setKey s "renewables_clusters"
                (.list (out.map Value.map))) "model_regions" =
                some (.list rv) := by
              rw [lookupKey_setKey_ne _ _ (by decide), hmr]
            have hcl' : lookupKey (setKey s "renewables_clusters"
                (.list (out.map Value.map))) "renewables_clusters" =
                some (.list (out.map Value.map)) := lookupKey_setKey_self _ _ _
            simp only [hmr', hparse, hcl']
            by_cases hout : out = []
            · subst hout
              rw [if_neg (by simp [truthy])]
            · rw [if_pos (by simp [truthy, hout])]
              simp only [parseEntryList_map, expandClusters_idem hec hreg]
              rw [setKey_of_lookup_self hcl']
    · rw [if_neg htr] at h
      cases h
      unfold apply_all_tag_to_regions
      simp only [hmr, hparse, hcl]
      rw [if_neg htr]

/-- Settings document on which idempotence fails: the model region "ALL"
is spelled like the wildcard. -/
def idemCex : List (String × Value) :=
  [("model_regions", .list [.str "ALL", .str "B"]),
   ("renewables_clusters", .list [.map [("region", .str "all"),
      ("technology", .str "wind")]])]

/-- First pass over `idemCex`. -/
def idemCexOut1 : List (String × Value) :=
  [("model_regions", .list [.str "ALL", .str "B"]),
   ("renewables_clusters", .list
      [.map [("region", .str "ALL"), ("technology", .str "wind")],
       .map [("region", .str "B"), ("technology", .str "wind")]])]

/-- Second pass over the first pass's output. -/
def idemCexOut2 : List (String × Value) :=
  [("model_regions", .list [.str "ALL", .str "B"]),
   ("renewables_clusters", .list
      [.map [("region", .str "B"), ("technology", .str "wind")],
       .map [("region", .str "ALL"), ("technology", .str "wind")]])]

/-- The region strings of the cluster entries, used to tell two settings
documents apart. -/
def clusterRegions (settings : List (String × Value)) : List String :=
  match lookupKey settings "renewables_clusters" with
  | some (.list vs) => vs.filterMap (fun v => match v with
      | .map e => regionStr e
      | _ => none)
  | _ => []

/-- C6 (counterexample).  With model regions ["ALL", "B"], the copy
generated for "ALL" is itself a wildcard entry, and a second pass
rewrites the list (["ALL", "B"] becomes ["B", "ALL"]): the expander is
not idempotent on every settings document. -/
theorem claim_C6_counterexample :
    apply_all_tag_to_regions idemCex = .ok idemCexOut1
    ∧ apply_all_tag_to_regions idemCexOut1 = .ok idemCexOut2
    ∧ clusterRegions idemCexOut1 = ["ALL", "B"]
    ∧ clusterRegions idemCexOut2 = ["B", "ALL"]
    ∧ (["B", "ALL"] : List String) ≠ ["ALL", "B"] :=
  ⟨rfl, rfl, rfl, rfl, by decide⟩

/-- Witness input for C6: a well-spelled region list. -/
def idemWit : List (String × Value) :=
  [("model_regions", .list [.str "A"]),
   ("renewables_clusters", .list [.map [("region", .str "all"),
      ("technology", .str "wind")]])]

/-- First pass over `idemWit`. -/
def idemWitOut : List (String × Value) :=
  [("model_regions", .list [.str "A"]),
   ("renewables_clusters", .list
      [.map [("region", .str "A"), ("technology", .str "wind")]])]

/-- C6 (witness): the amended idempotence theorem applied to `idemWit`. -/
theorem claim_C6_witness :
    apply_all_tag_to_regions idemWitOut = .ok idemWitOut :=
  claim_C6_amended idemWit idemWitOut [.str "A"] ["A"] rfl rfl rfl (by decide)

/-- The legacy-to-current parameter renames of `fix_param_names`
(`powergenome/util.py` lines 200-215). -/
def fix_params : List (String × String) :=
  [("historical_load_region_maps", "historical_load_region_map"),
   ("demand_response_resources", "flexible_demand_resources"),
   ("data_years", "eia_data_years")]

/-- One iteration of the `fix_param_names` loop: when the legacy key is
present, copy its value under the current name (the legacy key is left
in place; a warning is logged, which the value semantics ignore). -/
def fixStep (s : List (String × Value)) (kv : String × String) :
    List (String × Value) :=
  match lookupKey s kv.1 with
  | some v => setKey s kv.2 v
  | none => s

/-- `fix_param_names(settings)` of `powergenome/util.py` (lines
200-215). -/
def fix_param_names (settings : List (String × Value)) :
    List (String × Value) :=
  fix_params.foldl fixStep settings

theorem fixStep_lookup_ne {s : List (String × Value)} {kv : String × String}
    {x : String} (hx : x ≠ kv.2) :
    lookupKey (fixStep s kv) x = lookupKey s x := by
  unfold fixStep
  cases h : lookupKey s kv.1 with
  | none => rfl
  | some v => exact lookupKey_setKey_ne _ _ (Ne.symm hx)

theorem fixStep_lookup_self {s : List (String × Value)} {kv : String × String}
    {val : Value} (h : lookupKey s kv.1 = some val) :
    lookupKey (fixStep s kv) kv.2 = some val := by
  unfold fixStep
  rw [h, lookupKey_setKey_self]

theorem fixStep_id {s : List (String × Value)} {kv : String × String}
    (h : lookupKey s kv.1 = none) : fixStep s kv = s := by
  unfold fixStep
  rw [h]

/-- C10 (confirmed).  For every settings mapping holding a legacy key,
name normalization copies the legacy key's value to the current name —
overwriting whatever was there — while the legacy key itself stays in
the mapping with its value; a settings mapping containing none of the
legacy keys is returned unchanged. -/
theorem claim_C10 :
    (∀ (s : List (String × Value)) (k v : String), (k, v) ∈ fix_params →
      ∀ val, lookupKey s k = some val →
        lookupKey (fix_param_names s) v = some val ∧
        lookupKey (fix_param_names s) k = some val)
    ∧ (∀ s : List (String × Value),
        (∀ kv ∈ fix_params, lookupKey s kv.1 = none) →
        fix_param_names s = s) := by
  constructor
  · intro s k v hmem val hval
    have hfold : fix_param_names s =
        fixStep (fixStep (fixStep s
          ("historical_load_region_maps", "historical_load_region_map"))
          ("demand_response_resources", "flexible_demand_resources"))
          ("data_years", "eia_data_years") := rfl
    simp only [fix_params, List.mem_cons, List.mem_singleton,
      Prod.mk.injEq, List.not_mem_nil, or_false] at hmem
    rcases hmem with ⟨rfl, rfl⟩ | ⟨rfl, rfl⟩ | ⟨rfl, rfl⟩
    · rw [hfold]
      constructor
      · rw [fixStep_lookup_ne (by decide), fixStep_lookup_ne (by decide)]
        exact fixStep_lookup_self hval
      · rw [fixStep_lookup_ne (by decide), fixStep_lookup_ne (by decide),
          fixStep_lookup_ne (by decide)]
        exact hval
    · rw [hfold]
      constructor
      · rw [fixStep_lookup_ne (by decide)]
        exact fixStep_lookup_self (by rwa [fixStep_lookup_ne (by decide)])
      · rw [fixStep_lookup_ne (by decide), fixStep_lookup_ne (by decide),
          fixStep_lookup_ne (by decide)]
        exact hval
    · rw [hfold]
      constructor
      · exact fixStep_lookup_self
          (by rwa [fixStep_lookup_ne (by decide), fixStep_lookup_ne (by decide)])
      · rw [fixStep_lookup_ne (by decide), fixStep_lookup_ne (by decide),
          fixStep_lookup_ne (by decide)]
        exact hval
  · intro s hnone
    have h1 := hnone ("historical_load_region_maps",
      "historical_load_region_map") (by simp [fix_params])
    have h2 := hnone ("demand_response_resources",
      "flexible_demand_resources") (by simp [fix_params])
    have h3 := hnone ("data_years", "eia_data_years") (by simp [fix_params])
    show fixStep (fixStep (fixStep s _) _) _ = s
    rw [fixStep_id h1, fixStep_id h2, fixStep_id h3]

/-- C10 (witness): both clauses applied to concrete settings. -/
theorem claim_C10_witness :
    lookupKey (fix_param_names [("data_years", .int 2020)]) "eia_data_years" =
      some (.int 2020)
    ∧ lookupKey (fix_param_names [("data_years", .int 2020)]) "data_years" =
      some (.int 2020)
    ∧ fix_param_names [("model_regions", .list [])] = [("model_regions", .list [])] :=
  ⟨(claim_C10.1 [("data_years", .int 2020)] "data_years" "eia_data_years"
      (by simp [fix_params]) (.int 2020) rfl).1,
    (claim_C10.1 [("data_years", .int 2020)] "data_years" "eia_data_years"
      (by simp [fix_params]) (.int 2020) rfl).2,
    claim_C10.2 [("model_regions", .list [])]
      (by intro kv hkv; fin_cases hkv <;> rfl)⟩

/-- Pandas-style first-occurrence deduplication (`Series.unique`, and
the key order of `collections.Counter`). -/
def uniqueFirstAux (seen : List String) : List String → List String
  | [] => []
  | x :: xs =>
    if x ∈ seen then uniqueFirstAux seen xs
    else x :: uniqueFirstAux (seen ++ [x]) xs

/-- The distinct members of a string list, first occurrences first. -/
def uniqueFirst (l : List String) : List String := uniqueFirstAux [] l

theorem mem_uniqueFirstAux :
    ∀ (l seen : List String) (c : String),
      c ∈ uniqueFirstAux seen l ↔ c ∈ l ∧ c ∉ seen := by
  intro l
  induction l with
  | nil => intro seen c; simp [uniqueFirstAux]
  | cons x xs ih =>
    intro seen c
    by_cases hx : x ∈ seen
    · rw [uniqueFirstAux, if_pos hx, ih]
      constructor
      · rintro ⟨hc, hs⟩
        exact ⟨List.mem_cons_of_mem _ hc, hs⟩
      · rintro ⟨hc, hs⟩
        rcases List.mem_cons.mp hc with rfl | hc'
        · exact absurd hx hs
        · exact ⟨hc', hs⟩
    · rw [uniqueFirstAux, if_neg hx]
      constructor
      · intro hc
        rcases List.mem_cons.mp hc with rfl | hc'
        · exact ⟨List.mem_cons_self _ _, hx⟩
        · obtain ⟨h1, h2⟩ := (ih _ c).mp hc'
          simp only [List.mem_append, List.mem_singleton] at h2
          push_neg at h2
          exact ⟨List.mem_cons_of_mem _ h1, h2.1⟩
      · rintro ⟨hc, hs⟩
        rcases List.mem_cons.mp hc with rfl | hc'
        · exact List.mem_cons_self _ _
        · by_cases hcx : c = x
          · subst hcx
            exact List.mem_cons_self _ _
          · refine List.mem_cons_of_mem _ ((ih _ c).mpr ⟨hc', ?_⟩)
            simp [List.mem_append, hs, hcx]

theorem mem_uniqueFirst (l : List String) (c : String) :
    c ∈ uniqueFirst l ↔ c ∈ l := by
  rw [uniqueFirst, mem_uniqueFirstAux]
  simp

/-- The duplicated entries of `generator_columns`, in first-occurrence
order (`collections.Counter` plus the `num > 1` comprehension,
`check_settings` lines 408-409). -/
def duplicate_cols (cols : List String) : List String :=
  (uniqueFirst cols).filter (fun c => 1 < cols.countP (fun c' => c' == c))

/-- Error raised by the validator checks modelled here. -/
inductive CheckError where
  | duplicateKey (cols : List String)

/-- The duplicate-column check of `check_settings` (lines 408-414):
raise `KeyError` naming the duplicated columns when
`settings.get("generator_columns", [])` has repeats. -/
def check_generator_columns (cols : List String) : Except CheckError Unit :=
  if duplicate_cols cols ≠ [] then .error (.duplicateKey (duplicate_cols cols))
  else .ok ()

/-- C9 (confirmed).  The validator fails with `DuplicateKey` iff the
declared `generator_columns` list has a repeated entry; the named
columns are exactly the repeated ones; and `[a, b, a]` raises naming
`a`. -/
theorem claim_C9 :
    (∀ cols : List String,
      (∃ err, check_generator_columns cols = .error err) ↔
        ∃ c ∈ cols, 2 ≤ cols.countP (fun c' => c' == c))
    ∧ (∀ (cols : List String) (c : String),
        c ∈ duplicate_cols cols ↔ 2 ≤ cols.countP (fun c' => c' == c))
    ∧ check_generator_columns ["a", "b", "a"] = .error (.duplicateKey ["a"]) := by
  have hmem : ∀ (cols : List String) (c : String),
      c ∈ duplicate_cols cols ↔ 2 ≤ cols.countP (fun c' => c' == c) := by
    intro cols c
    rw [duplicate_cols, List.mem_filter, mem_uniqueFirst]
    constructor
    · rintro ⟨-, h⟩
      rw [decide_eq_true_eq] at h
      omega
    · intro h
      have hpos : 0 < cols.countP (fun c' => c' == c) := by omega
      rw [List.countP_pos] at hpos
      obtain ⟨a, ha, hac⟩ := hpos
      rw [beq_iff_eq] at hac
      subst hac
      exact ⟨ha, by rw [decide_eq_true_eq]; omega⟩
  refine ⟨?_, hmem, rfl⟩
  intro cols
  constructor
  · rintro ⟨err, herr⟩
    unfold check_generator_columns at herr
    by_cases hd : duplicate_cols cols ≠ []
    · obtain ⟨c, hc⟩ := List.exists_mem_of_ne_nil _ hd
      have h2 := (hmem cols c).mp hc
      have hpos : 0 < cols.countP (fun c' => c' == c) := by omega
      rw [List.countP_pos] at hpos
      obtain ⟨a, ha, hac⟩ := hpos
      rw [beq_iff_eq] at hac
      subst hac
      exact ⟨a, ha, h2⟩
    · rw [if_neg hd] at herr
      exact Except.noConfusion herr
  · rintro ⟨c, hc, h2⟩
    have hd : duplicate_cols cols ≠ [] := by
      intro hnil
      have := (hmem cols c).mpr h2
      rw [hnil] at this
      exact List.not_mem_nil c this
    unfold check_generator_columns
    rw [if_pos hd]
    exact ⟨.duplicateKey (duplicate_cols cols), rfl⟩

/-- C9 (witness): the failure characterization instantiated at
`["a", "b", "a"]`. -/
theorem claim_C9_witness :
    ∃ err, check_generator_columns ["a", "b", "a"] = .error err :=
  (claim_C9.1 ["a", "b", "a"]).mpr ⟨"a", by decide⟩

/-- What kind of filesystem object the settings path names. -/
inductive PathKind where
  | file
  | dir
  | missing

/-- The inputs `load_settings` reads from the outside world: the settings
path (as segments), whether it is a file or directory, the parsed YAML
mapping of the single file (none models a null/empty YAML document), the
parsed mappings of the directory's `*.yml` files in glob order, and
whether the platform is POSIX (`os.name != "nt"`). -/
structure LoadInput where
  path : List String
  kind : PathKind
  fileContent : Option (List (String × Value))
  dirFiles : List (Option (List (String × Value)))
  posix : Bool

/-- Failure modes of `load_settings`. -/
inductive LoadError where
  | notFound
  | typeError
  | regionErr (e : RegionError)

/-- Python `base.update(s)`: shallow top-level key replacement. -/
def updateShallow (base s : List (String × Value)) : List (String × Value) :=
  s.foldl (fun acc kv => setKey acc kv.1 kv.2) base

/-- The file-reading part of `load_settings` (lines 39-55): a single
file yields its parsed mapping (a null document later crashes on
`.get`, modelled as `typeError`); a directory starts from `{}` and
shallow-merges every truthy parsed file; anything else raises
`FileNotFoundError`. -/
def rawSettings (inp : LoadInput) : Except LoadError (List (String × Value)) :=
  match inp.kind with
  | .file =>
    match inp.fileContent with
    | some m => .ok m
    | none => .error .typeError
  | .dir =>
    .ok (inp.dirFiles.foldl
      (fun acc of =>
        match of with
        | some s => if s.isEmpty then acc else updateShallow acc s
        | none => acc) [])
  | .missing => .error .notFound

/-- `path.parent` on a segment list. -/
def parentPath (p : List String) : List String := p.dropLast

/-- The input-folder resolution of `load_settings` (lines 57-58):
`settings["input_folder"] = path.parent / settings["input_folder"]`
when the field is truthy.  The joined folder name is modelled as one
appended segment; joining onto a non-string, non-path value raises
`TypeError`. -/
def resolveInputFolder (path : List String)
    (settings : List (String × Value)) :
    Except LoadError (List (String × Value)) :=
  match lookupKey settings "input_folder" with
  | some v =>
    if truthy v then
      match v with
      | .str f =>
        .ok (setKey settings "input_folder" (.path (parentPath path ++ [f])))
      | .path p =>
        .ok (setKey settings "input_folder" (.path (parentPath path ++ p)))
      | _ => .error .typeError
    else .ok settings
  | none => .ok settings

/-- Python `pat in s` on strings (substring containment). -/
def strContains (s pat : String) : Bool := (s.splitOn pat).length != 1

/-- `sqlalchemy_prefix(db_path)` of `powergenome/util.py` (lines
79-103): pick the platform connection-string marker, return the path
unchanged when it already contains the marker, and prepend it otherwise
(the `Path` normalization of the source is the identity on the plain
relative paths modelled here; the `None` short-circuit is unreachable
because callers guard on truthiness). -/
def sqlalchemy_uri (posix : Bool) (db_path : String) : String :=
  let pre := if posix then "sqlite:////" else "sqlite:///"
  if strContains db_path pre then db_path else pre ++ db_path

/-- One iteration of the PUDL_DB/PG_DB loop of `load_settings` (lines
62-65): rewrite a truthy string value through `sqlalchemy_prefix`. -/
def applyDbKey (posix : Bool) (settings : List (String × Value))
    (key : String) : Except LoadError (List (String × Value)) :=
  match lookupKey settings key with
  | some v =>
    if truthy v then
      match v with
      | .str s => .ok (setKey settings key (.str (sqlalchemy_uri posix s)))
      | _ => .error .typeError
    else .ok settings
  | none => .ok settings

/-- One iteration of the data-path loop of `load_settings` (lines
67-74): wrap a truthy value in `Path(...)`. -/
def applyPathKey (settings : List (String × Value)) (key : String) :
    Except LoadError (List (String × Value)) :=
  match lookupKey settings key with
  | some v =>
    if truthy v then
      match v with
      | .str s => .ok (setKey settings key (.path [s]))
      | .path p => .ok (setKey settings key (.path p))
      | _ => .error .typeError
    else .ok settings
  | none => .ok settings

/-- Fold a per-key rewriting step over a list of keys. -/
def applyKeys
    (f : List (String × Value) → String → Except LoadError (List (String × Value))) :
    List (String × Value) → List String →
    Except LoadError (List (String × Value))
  | s, [] => .ok s
  | s, k :: ks =>
    match f s k with
    | .error e => .error e
    | .ok s' => applyKeys f s' ks

/-- `load_settings(path)` of `powergenome/util.py` (lines 25-76): read
the file or directory, resolve `input_folder` against `path.parent`,
apply region-tag expansion, rewrite the database connection strings,
wrap the data-path keys, and normalize legacy parameter names. -/
def load_settings (inp : LoadInput) :
    Except LoadError (List (String × Value)) :=
  match rawSettings inp with
  | .error e => .error e
  | .ok settings =>
    match resolveInputFolder inp.path settings with
    | .error e => .error e
    | .ok s₁ =>
      match apply_all_tag_to_regions s₁ with
      | .error e => .error (.regionErr e)
      | .ok s₂ =>
        match applyKeys (applyDbKey inp.posix) s₂ ["PUDL_DB", "PG_DB"] with
        | .error e => .error e
        | .ok s₃ =>
          match applyKeys applyPathKey s₃
              ["EFS_DATA", "RESOURCE_GROUPS", "DISTRIBUTED_GEN_DATA",
               "RESOURCE_GROUP_PROFILES"] with
          | .error e => .error e
          | .ok s₄ => .ok (fix_param_names s₄)

theorem apply_all_shape {s s' : List (String × Value)}
    (h : apply_all_tag_to_regions s = .ok s') :
    s' = s ∨ ∃ x, s' = setKey s "renewables_clusters" x := by
  unfold apply_all_tag_to_regions at h
  cases hmr : lookupKey s "model_regions" with
  | none =>
    simp only [hmr] at h
    exact Except.noConfusion h
  | some v =>
    simp only [hmr] at h
    cases v with
    | null => simp at h
    | bool b => simp at h
    | int n => simp at h
    | str x => simp at h
    | path p => simp at h
    | map m => simp at h
    | list rvs =>
      simp only [] at h
      cases hp : parseStrList rvs with
      | none =>
        simp only [hp] at h
        exact Except.noConfusion h
      | some regions =>
        simp only [hp] at h
        cases hcl : lookupKey s "renewables_clusters" with
        | none =>
          simp only [hcl] at h
          cases h
          exact Or.inl rfl
        | some v =>
          simp only [hcl] at h
          by_cases htr : truthy v
          · rw [if_pos htr] at h
            cases v with
            | null => simp at h
            | bool b => simp at h
            | int n => simp at h
            | str x => simp at h
            | path p => simp at h
            | map m => simp at h
            | list evs =>
              simp only [] at h
              cases hpe : parseEntryList evs with
              | none =>
                simp only [hpe] at h
                exact Except.noConfusion h
              | some entries =>
                simp only [hpe] at h
                cases hec : expandClusters regions entries with
                | error e =>
                  simp only [hec] at h
                  exact Except.noConfusion h
                | ok out =>
                  simp only [hec] at h
                  cases h
                  exact Or.inr ⟨_, rfl⟩
          · rw [if_neg htr] at h
            cases h
            exact Or.inl rfl

theorem apply_all_preserves {s s' : List (String × Value)} {k : String}
    (h : apply_all_tag_to_regions s = .ok s') (hk : k ≠ "renewables_clusters") :
    lookupKey s' k = lookupKey s k := by
  rcases apply_all_shape h with rfl | ⟨x, rfl⟩
  · rfl
  · exact lookupKey_setKey_ne _ _ (Ne.symm hk)

theorem applyDbKey_preserves {posix : Bool} {s s' : List (String × Value)}
    {key x : String} (h : applyDbKey posix s key = .ok s') (hx : x ≠ key) :
    lookupKey s' x = lookupKey s x := by
  unfold applyDbKey at h
  cases hl : lookupKey s key with
  | none =>
    simp only [hl] at h
    cases h
    rfl
  | some v =>
    simp only [hl] at h
    by_cases htr : truthy v
    · rw [if_pos htr] at h
      cases v with
      | str y =>
        cases h
        exact lookupKey_setKey_ne _ _ (Ne.symm hx)
      | null => exact Except.noConfusion h
      | bool b => exact Except.noConfusion h
      | int n => exact Except.noConfusion h
      | path p => exact Except.noConfusion h
      | list l => exact Except.noConfusion h
      | map m => exact Except.noConfusion h
    · rw [if_neg htr] at h
      cases h
      rfl

theorem applyPathKey_preserves {s s' : List (String × Value)}
    {key x : String} (h : applyPathKey s key = .ok s') (hx : x ≠ key) :
    lookupKey s' x = lookupKey s x := by
  unfold applyPathKey at h
  cases hl : lookupKey s key with
  | none =>
    simp only [hl] at h
    cases h
    rfl
  | some v =>
    simp only [hl] at h
    by_cases htr : truthy v
    · rw [if_pos htr] at h
      cases v with
      | str y =>
        cases h
        exact lookupKey_setKey_ne _ _ (Ne.symm hx)
      | path p =>
        cases h
        exact lookupKey_setKey_ne _ _ (Ne.symm hx)
      | null => exact Except.noConfusion h
      | bool b => exact Except.noConfusion h
      | int n => exact Except.noConfusion h
      | list l => exact Except.noConfusion h
      | map m => exact Except.noConfusion h
    · rw [if_neg htr] at h
      cases h
      rfl

theorem applyKeys_preserves
    {f : List (String × Value) → String → Except LoadError (List (String × Value))}
    (hf : ∀ s k s', f s k = .ok s' → ∀ x, x ≠ k → lookupKey s' x = lookupKey s x) :
    ∀ (keys : List String) (s s' : List (String × Value)),
      applyKeys f s keys = .ok s' → ∀ x, x ∉ keys →
      lookupKey s' x = lookupKey s x := by
  intro keys
  induction keys with
  | nil =>
    intro s s' h x _
    rw [applyKeys] at h
    cases h
    rfl
  | cons k ks ih =>
    intro s s' h x hx
    rw [applyKeys] at h
    cases hstep : f s k with
    | error e => rw [hstep] at h; exact Except.noConfusion h
    | ok s₁ =>
      rw [hstep] at h
      have hx1 : x ≠ k := fun he => hx (he ▸ List.mem_cons_self _ _)
      have hx2 : x ∉ ks := fun he => hx (List.mem_cons_of_mem _ he)
      rw [ih s₁ s' h x hx2, hf s k s₁ hstep x hx1]

theorem fix_param_names_preserves_input_folder (s : List (String × Value)) :
    lookupKey (fix_param_names s) "input_folder" = lookupKey s "input_folder" := by
  show lookupKey (fixStep (fixStep (fixStep s _) _) _) "input_folder" = _
  rw [fixStep_lookup_ne (by decide), fixStep_lookup_ne (by decide),
    fixStep_lookup_ne (by decide)]

/-- C7 (amended).  After loading, a truthy string-valued
input-data-folder field is resolved against `path.parent` — the parent
of the settings path itself.  For a single-file path that is the
directory containing the file (as the claim says); for a DIRECTORY path
it is the parent of that directory, one level above the directory that
contains the loaded files (the point on which the original claim
fails). -/
theorem claim_C7_amended :
    ∀ (inp : LoadInput) (s₀ out : List (String × Value)) (f : String),
    rawSettings inp = .ok s₀ →
    lookupKey s₀ "input_folder" = some (.str f) →
    f ≠ "" →
    load_settings inp = .ok out →
    lookupKey out "input_folder" = some (.path (inp.path.dropLast ++ [f])) := by
  intro inp s₀ out f hraw hlook hf hok
  unfold load_settings at hok
  simp only [hraw] at hok
  have hres : resolveInputFolder inp.path s₀ =
      .ok (setKey s₀ "input_folder" (.path (parentPath inp.path ++ [f]))) := by
    unfold resolveInputFolder
    simp only [hlook]
    rw [if_pos (by simp [truthy, hf])]
  simp only [hres] at hok
  set s₁ := setKey s₀ "input_folder" (.path (parentPath inp.path ++ [f])) with hs₁
  have hifold : lookupKey s₁ "input_folder" =
      some (.path (parentPath inp.path ++ [f])) := lookupKey_setKey_self _ _ _
  cases hreg : apply_all_tag_to_regions s₁ with
  | error e =>
    simp only [hreg] at hok
    exact Except.noConfusion hok
  | ok s₂ =>
    simp only [hreg] at hok
    cases hdb : applyKeys (applyDbKey inp.posix) s₂ ["PUDL_DB", "PG_DB"] with
    | error e =>
      simp only [hdb] at hok
      exact Except.noConfusion hok
    | ok s₃ =>
      simp only [hdb] at hok
      cases hpk : applyKeys applyPathKey s₃
          ["EFS_DATA", "RESOURCE_GROUPS", "DISTRIBUTED_GEN_DATA",
           "RESOURCE_GROUP_PROFILES"] with
      | error e =>
        simp only [hpk] at hok
        exact Except.noConfusion hok
      | ok s₄ =>
        simp only [hpk] at hok
        cases hok
        rw [fix_param_names_preserves_input_folder,
          applyKeys_preserves (fun s k s' h x hx => applyPathKey_preserves h hx)
            _ s₃ s₄ hpk "input_folder" (by decide),
          applyKeys_preserves (fun s k s' h x hx => applyDbKey_preserves h hx)
            _ s₂ s₃ hdb "input_folder" (by decide),
          apply_all_preserves hreg (by decide), hifold]
        rfl

/-- Directory-input counterexample for C7: the settings directory is
`proj/settings`, so the directory containing the loaded files is
`proj/settings` — but `input_folder: data` resolves to `proj/data`
(the directory's parent), not `proj/settings/data`. -/
def dirCexInput : LoadInput :=
  { path := ["proj", "settings"], kind := .dir,
    fileContent := none,
    dirFiles := [some [("model_regions", .list []), ("input_folder", .str "data")]],
    posix := true }

/-- C7 (counterexample).  For a directory settings path the
input-data-folder is resolved relative to the PARENT of the directory,
not the directory that contains the loaded files. -/
theorem claim_C7_counterexample :
    dirCexInput.kind = .dir
    ∧ load_settings dirCexInput =
        .ok [("model_regions", .list []), ("input_folder", .path ["proj", "data"])]
    ∧ (["proj", "data"] : List String) ≠ ["proj", "settings", "data"] :=
  ⟨rfl, rfl, by decide⟩

/-- Witness input for C7: a single settings file `proj/cfg/settings.yml`. -/
def fileWitInput : LoadInput :=
  { path := ["proj", "cfg", "settings.yml"], kind := .file,
    fileContent := some [("model_regions", .list []), ("input_folder", .str "data")],
    dirFiles := [], posix := true }

/-- C7 (witness): the amended theorem applied to a single-file load,
where `path.parent` is the directory containing the file. -/
theorem claim_C7_witness :
    lookupKey [("model_regions", Value.list []),
        ("input_folder", Value.path ["proj", "cfg", "data"])] "input_folder" =
      some (.path ((["proj", "cfg", "settings.yml"] : List String).dropLast
        ++ ["data"])) :=
  claim_C7_amended fileWitInput
    [("model_regions", .list []), ("input_folder", .str "data")]
    [("model_regions", .list []), ("input_folder", .path ["proj", "cfg", "data"])]
    "data" rfl rfl (by decide) rfl

/-- Build a CPython dict from a pair list: first-occurrence positions,
last-assignment values (also `DataFrame.set_index(...).to_dict()` per
column: later rows overwrite earlier ones for the same key). -/
def dictOf {κ α : Type} [DecidableEq κ] (l : List (κ × α)) : List (κ × α) :=
  l.foldl (fun acc kv => setKey acc kv.1 kv.2) []

mutual

/-- The leaf key paths of `flatten_dict.flatten(d)`: dot-path tuples of
the keys leading to each non-mapping leaf (a nested empty mapping
contributes no leaves). -/
def flattenKeys : List (String × Value) → List (List String)
  | [] => []
  | (k, v) :: rest =>
    (flattenValKeys v).map (fun p => k :: p) ++ flattenKeys rest
termination_by structural l => l

/-- The leaf key paths below one value: a mapping contributes its own
leaf paths, any other value is a single leaf. -/
def flattenValKeys : Value → List (List String)
  | .map m => flattenKeys m
  | _ => [[]]
termination_by structural v => v

end

/-- Failure modes of `build_scenario_settings`: the missing
planning-year configuration (KeyError with message, lines 851-856), the
duplicate-override assertion (lines 917-919), and the case-name lookup
KeyError (line 932). -/
inductive ExpansionError where
  | missingConfiguration
  | conflict (key : List String) (case_id : String)
  | caseNameNotFound (case_id : String)

/-- The duplicate-override check of `build_scenario_settings` (lines
916-921): walk the flattened keys of the override in order, failing on
the first key already in `modified_settings` (naming the key and the
case id) and appending each new key. -/
def checkKeys (cid : String) :
    List (List String) → List (List String) →
    Except ExpansionError (List (List String))
  | modified, [] => .ok modified
  | modified, k :: ks =>
    if k ∈ modified then .error (.conflict k cid)
    else checkKeys cid (modified ++ [k]) ks

/-- One warning record for the missing-override log (lines 904-909). -/
structure WarnEntry where
  year : Int
  category : String
  value : String
  case_id : String

/-- One planning year's slice of the `settings_management` table:
the optional `all_cases` override plus, per category, the value-label →
override mapping. -/
structure MgmtSlice where
  all_cases : Option (List (String × Value))
  categories : List (String × List (String × List (String × Value)))

/-- The empty settings-management slice (`{}`). -/
def emptySlice : MgmtSlice := ⟨none, []⟩

/-- One row of the scenario-definitions table: its case id, planning
year, and the value labels of the category columns present for it. -/
structure ScenarioRow where
  case_id : String
  year : Int
  values : List (String × String)

/-- The inputs of `build_scenario_settings`, typed views of the fields
the source reads: the base settings mapping to be deep-copied per case,
the planning-year configuration (`model_periods`, or the parallel
`model_year` / `model_first_planning_year` lists), the
`settings_management` table, the case id → case name table (read from
CSV by `build_case_id_name_map`), and the scenario-definitions table
(category columns plus rows). -/
structure ScenarioInput where
  base : List (String × Value)
  model_periods : Option (List (Int × Int))
  model_year_list : Option (List Int)
  model_first_planning_year_list : Option (List Int)
  settings_management : List (Int × MgmtSlice)
  case_id_name_map : List (String × String)
  categories : List String
  rows : List ScenarioRow

/-- `d[k] = v` on a settings object known to be a mapping. -/
def vset (d : Value) (k : String) (v : Value) : Value :=
  match d with
  | .map m => .map (setKey m k v)
  | _ => d

/-- `d.get(k)` on a settings object known to be a mapping. -/
def vget (d : Value) (k : String) : Option Value :=
  match d with
  | .map m => lookupKey m k
  | _ => none

/-- One iteration of the per-category loop of `build_scenario_settings`
(lines 885-928) for one case: look up the case's value label (a missing
label is the KeyError that is silently passed over), fetch the override
(`.get(category, {}).get(case_value, {}) or {}`), log a warning — once
per (category, value) pair recorded in `new_param_warn_list` — when the
override is empty, check its flattened keys against
`modified_settings`, and merge it into the case's settings. -/
def applyCategory (slice : MgmtSlice) (year : Int) (cid : String)
    (st : Value × List (List String) × List (String × String) × List WarnEntry)
    (cd : String × List (String × String)) :
    Except ExpansionError
      (Value × List (List String) × List (String × String) × List WarnEntry) :=
  match lookupKey cd.2 cid with
  | none => .ok st
  | some case_value =>
    let new_parameter :=
      (lookupKey ((lookupKey slice.categories cd.1).getD []) case_value).getD []
    let s := st.1
    let modified := st.2.1
    let warns := st.2.2.1
    let log := st.2.2.2
    let wl :=
      if new_parameter.isEmpty ∧ (cd.1, case_value) ∉ warns then
        (warns ++ [(cd.1, case_value)], log ++ [⟨year, cd.1, case_value, cid⟩])
      else (warns, log)
    match checkKeys cid modified (flattenKeys new_parameter) with
    | .error e => .error e
    | .ok modified' => .ok (update_dictionary s new_parameter, modified', wl.1, wl.2)

/-- Fold the per-category step over the category columns in order. -/
def applyCategories (slice : MgmtSlice) (year : Int) (cid : String) :
    (Value × List (List String) × List (String × String) × List WarnEntry) →
    List (String × List (String × String)) →
    Except ExpansionError
      (Value × List (List String) × List (String × String) × List WarnEntry)
  | st, [] => .ok st
  | st, cd :: rest =>
    match applyCategory slice year cid st cd with
    | .error e => .error e
    | .ok st' => applyCategories slice year cid st' rest

/-- The start of the per-case body (lines 877-882): a deep copy of the
base settings with `case_id` injected, with the year's `all_cases`
override merged in when present. -/
def initialCaseSettings (slice : MgmtSlice) (base : List (String × Value))
    (cid : String) : Value :=
  match slice.all_cases with
  | some p => update_dictionary (Value.map (setKey base "case_id" (.str cid))) p
  | none => Value.map (setKey base "case_id" (.str cid))

/-- The per-case body of `build_scenario_settings` (lines 877-933):
start from `initialCaseSettings`, run the per-category loop with a
fresh `modified_settings` list, then inject `model_first_planning_year`,
`model_year`, and the case name (KeyError when the case id is missing
from the name table). -/
def processCase (slice : MgmtSlice)
    (catDicts : List (String × List (String × String)))
    (nameMap : List (String × String)) (base : List (String × Value))
    (startYear year : Int) (warns : List (String × String)) (cid : String) :
    Except ExpansionError (Value × List (String × String) × List WarnEntry) :=
  match applyCategories slice year cid
      (initialCaseSettings slice base cid, [], warns, []) catDicts with
  | .error e => .error e
  | .ok (s₂, _, warns', log) =>
    match lookupKey nameMap cid with
    | none => .error (.caseNameNotFound cid)
    | some nm =>
      .ok (vset (vset (vset s₂ "model_first_planning_year" (.int startYear))
        "model_year" (.int year)) "case_name" (.str nm), warns', log)

/-- Fold the per-case body over a year's case ids, threading the
per-year `new_param_warn_list` and collecting the warning log. -/
def processCases (slice : MgmtSlice)
    (catDicts : List (String × List (String × String)))
    (nameMap : List (String × String)) (base : List (String × Value))
    (startYear year : Int) :
    (List (String × Value) × List (String × String) × List WarnEntry) →
    List String →
    Except ExpansionError
      (List (String × Value) × List (String × String) × List WarnEntry)
  | acc, [] => .ok acc
  | (res, warns, log), cid :: cids =>
    match processCase slice catDicts nameMap base startYear year warns cid with
    | .error e => .error e
    | .ok (s, warns', clog) =>
      processCases slice catDicts nameMap base startYear year
        (res ++ [(cid, s)], warns', log ++ clog) cids

/-- The per-category case-id → value-label dictionaries of one year
(`planning_year_scenario_definitions_dict`, lines 869-874): per
category column, the values of that year's rows indexed by case id,
later rows overwriting earlier ones. -/
def catDictsFor (rows : List ScenarioRow) (categories : List String)
    (year : Int) : List (String × List (String × String)) :=
  categories.map (fun cat =>
    (cat, dictOf ((rows.filter (fun row => row.year == year)).filterMap
      (fun row => (lookupKey row.values cat).map (fun v => (row.case_id, v))))))

/-- The distinct case ids of one year's rows, in first-occurrence order
(`scenario_definitions.query("year==@year")["case_id"].unique()`). -/
def caseIdsFor (rows : List ScenarioRow) (year : Int) : List String :=
  uniqueFirst ((rows.filter (fun row => row.year == year)).map
    (fun row => row.case_id))

/-- The planning-period dictionary of `build_scenario_settings` (lines
838-856): year → first planning year, from a truthy `model_periods`
list, else from zipping `model_year` with `model_first_planning_year`
when both are lists, else the missing-configuration KeyError. -/
def planningPeriods (inp : ScenarioInput) :
    Except ExpansionError (List (Int × Int)) :=
  match inp.model_periods with
  | some (p :: ps) =>
    .ok (dictOf ((p :: ps).map (fun sy => (sy.2, sy.1))))
  | _ =>
    match inp.model_year_list, inp.model_first_planning_year_list with
    | some ys, some fs => .ok (dictOf (ys.zip fs))
    | _, _ => .error .missingConfiguration

/-- The per-year loop of `build_scenario_settings` (lines 861-933):
fetch the year's settings-management slice (`... or {}`), build the
per-category dictionaries, reset `new_param_warn_list`, and process the
year's case ids in order. -/
def goYears (inp : ScenarioInput) :
    List (Int × Int) →
    (List (Int × List (String × Value)) × List WarnEntry) →
    Except ExpansionError
      (List (Int × List (String × Value)) × List WarnEntry)
  | [], acc => .ok acc
  | (year, startYear) :: rest, (acc, log) =>
    match processCases ((lookupKey inp.settings_management year).getD emptySlice)
        (catDictsFor inp.rows inp.categories year) inp.case_id_name_map inp.base
        startYear year ([], [], []) (caseIdsFor inp.rows year) with
    | .error e => .error e
    | .ok (cases, _, ylog) => goYears inp rest (acc ++ [(year, cases)], log ++ ylog)

/-- `build_scenario_settings(settings, scenario_definitions)` of
`powergenome/util.py` (lines 816-935), returning the year → case id →
resolved-settings structure together with the missing-override warning
log. -/
def build_scenario_settings (inp : ScenarioInput) :
    Except ExpansionError
      (List (Int × List (String × Value)) × List WarnEntry) :=
  match planningPeriods inp with
  | .error e => .error e
  | .ok periods => goYears inp periods ([], [])

/-- The duplicate-override check errors exactly when one of the new
override's flattened leaf keys was already written, and the error names
such a key together with the case id. -/
theorem checkKeys_iff :
    ∀ (ks modified : List (List String)) (cid : String), ks.Nodup →
      ((∃ k ∈ ks, k ∈ modified) ↔
        ∃ k, k ∈ ks ∧ k ∈ modified ∧
          checkKeys cid modified ks = .error (.conflict k cid)) := by
  intro ks
  induction ks with
  | nil =>
    intro modified cid _
    simp [checkKeys]
  | cons k₀ ks ih =>
    intro modified cid hnd
    rw [List.nodup_cons] at hnd
    obtain ⟨hk₀, hnd'⟩ := hnd
    by_cases hmem : k₀ ∈ modified
    · constructor
      · intro _
        exact ⟨k₀, List.mem_cons_self _ _, hmem, by rw [checkKeys, if_pos hmem]⟩
      · intro _
        exact ⟨k₀, List.mem_cons_self _ _, hmem⟩
    · have hstep : checkKeys cid modified (k₀ :: ks) =
          checkKeys cid (modified ++ [k₀]) ks := by
        rw [checkKeys, if_neg hmem]
      have hih := ih (modified ++ [k₀]) cid hnd'
      constructor
      · rintro ⟨k, hk, hkm⟩
        rcases List.mem_cons.mp hk with rfl | hk'
        · exact absurd hkm hmem
        · have hthere : ∃ k ∈ ks, k ∈ modified ++ [k₀] :=
            ⟨k, hk', by simp [hkm]⟩
          obtain ⟨k', hk'₁, hk'₂, herr⟩ := hih.mp hthere
          have hk'm : k' ∈ modified := by
            rcases List.mem_append.mp hk'₂ with h | h
            · exact h
            · rw [List.mem_singleton] at h
              exact absurd (h ▸ hk'₁) hk₀
          exact ⟨k', List.mem_cons_of_mem _ hk'₁, hk'm, by rw [hstep]; exact herr⟩
      · rintro ⟨k, hk, hkm, herr⟩
        rcases List.mem_cons.mp hk with rfl | hk'
        · exact absurd hkm hmem
        · exact ⟨k, List.mem_cons_of_mem _ hk', hkm⟩

/-- C1 conflict example: both categories override the leaf key `a.b`
for the same case id `p1`. -/
def conflictInput : ScenarioInput :=
  { base := [("model_regions", .list [])],
    model_periods := some [(2025, 2030)],
    model_year_list := none,
    model_first_planning_year_list := none,
    settings_management := [(2030,
      { all_cases := none,
        categories :=
          [("cat1", [("v1", [("a", .map [("b", .int 1)])])]),
           ("cat2", [("w1", [("a", .map [("b", .int 2)])])])] })],
    case_id_name_map := [("p1", "Base")],
    categories := ["cat1", "cat2"],
    rows := [⟨"p1", 2030, [("cat1", "v1"), ("cat2", "w1")]⟩] }

/-- C1 independence example: the same two overlapping overrides, but
selected by two different case ids (one each). -/
def independentInput : ScenarioInput :=
  { conflictInput with
    rows := [⟨"p1", 2030, [("cat1", "v1")]⟩, ⟨"p2", 2030, [("cat2", "w1")]⟩],
    case_id_name_map := [("p1", "Base"), ("p2", "Other")] }

/-- C1 (confirmed).  Before a category override is merged, its flattened
leaf keys are checked against the leaf keys already written for this
case, and the check fails — naming the offending key and the case id —
exactly when a leaf key repeats; an end-to-end run where two categories
override `a.b` for the same case id fails with that conflict; and the
same pair of overlapping overrides split across two different case ids
succeeds, because `modified_settings` is reset for every case. -/
theorem claim_C1 :
    (∀ (ks modified : List (List String)) (cid : String), ks.Nodup →
      ((∃ k ∈ ks, k ∈ modified) ↔
        ∃ k, k ∈ ks ∧ k ∈ modified ∧
          checkKeys cid modified ks = .error (.conflict k cid)))
    ∧ build_scenario_settings conflictInput = .error (.conflict ["a", "b"] "p1")
    ∧ (build_scenario_settings independentInput).isOk = true :=
  ⟨checkKeys_iff, rfl, rfl⟩

/-- C1 (witness): the conflict characterization instantiated at a
concrete key list and modified set. -/
theorem claim_C1_witness :
    ∃ k, k ∈ [["a", "b"]] ∧ k ∈ [["a", "b"], ["c"]] ∧
      checkKeys "p9" [["a", "b"], ["c"]] [["a", "b"]] =
        .error (.conflict k "p9") :=
  (claim_C1.1 [["a", "b"]] [["a", "b"], ["c"]] "p9" (by decide)).mp
    ⟨["a", "b"], by decide, by decide⟩

theorem updateOne_map_isMap (m : List (String × Value)) (k : String)
    (v : Value) : ∃ m', updateOne (.map m) k v = .map m' := by
  cases v with
  | map uv => exact ⟨_, updateOne_map_map _ _ _⟩
  | null => exact ⟨_, updateOne_map_nonmap _ _ (by intro uv h; cases h)⟩
  | bool b => exact ⟨_, updateOne_map_nonmap _ _ (by intro uv h; cases h)⟩
  | int n => exact ⟨_, updateOne_map_nonmap _ _ (by intro uv h; cases h)⟩
  | str x => exact ⟨_, updateOne_map_nonmap _ _ (by intro uv h; cases h)⟩
  | path p => exact ⟨_, updateOne_map_nonmap _ _ (by intro uv h; cases h)⟩
  | list l => exact ⟨_, updateOne_map_nonmap _ _ (by intro uv h; cases h)⟩

theorem update_dictionary_isMap :
    ∀ (u : List (String × Value)) (d : Value), (∃ m, d = .map m) →
      ∃ m', update_dictionary d u = .map m' := by
  intro u
  induction u with
  | nil =>
    intro d hd
    rw [update_dictionary_nil]
    exact hd
  | cons kv rest ih =>
    intro d hd
    obtain ⟨m, rfl⟩ := hd
    obtain ⟨k, v⟩ := kv
    rw [update_dictionary_cons]
    obtain ⟨m₁, hm₁⟩ := updateOne_map_isMap m k v
    rw [hm₁]
    exact ih _ ⟨m₁, rfl⟩

theorem vset_isMap {d : Value} (h : ∃ m, d = .map m) (k : String) (v : Value) :
    ∃ m', vset d k v = .map m' := by
  obtain ⟨m, rfl⟩ := h
  exact ⟨_, rfl⟩

theorem vget_vset_self {d : Value} (h : ∃ m, d = .map m) (k : String)
    (v : Value) : vget (vset d k v) k = some v := by
  obtain ⟨m, rfl⟩ := h
  show lookupKey (setKey m k v) k = some v
  exact lookupKey_setKey_self _ _ _

theorem vget_vset_ne (d : Value) {k k' : String} (v : Value) (h : k' ≠ k) :
    vget (vset d k' v) k = vget d k := by
  cases d with
  | map m => exact lookupKey_setKey_ne _ _ h
  | null => rfl
  | bool b => rfl
  | int n => rfl
  | str s => rfl
  | path p => rfl
  | list l => rfl

theorem initialCaseSettings_isMap (slice : MgmtSlice)
    (base : List (String × Value)) (cid : String) :
    ∃ m, initialCaseSettings slice base cid = .map m := by
  unfold initialCaseSettings
  cases slice.all_cases with
  | none => exact ⟨_, rfl⟩
  | some p => exact update_dictionary_isMap p _ ⟨_, rfl⟩

theorem applyCategory_shape {slice : MgmtSlice} {year : Int} {cid : String}
    {st st' : Value × List (List String) × List (String × String) × List WarnEntry}
    {cd : String × List (String × String)}
    (h : applyCategory slice year cid st cd = .ok st') :
    st' = st ∨ ∃ np, st'.1 = update_dictionary st.1 np := by
  unfold applyCategory at h
  cases hl : lookupKey cd.2 cid with
  | none =>
    simp only [hl] at h
    cases h
    exact Or.inl rfl
  | some cv =>
    simp only [hl] at h
    cases hck : checkKeys cid st.2.1
        (flattenKeys ((lookupKey ((lookupKey slice.categories cd.1).getD [])
          cv).getD [])) with
    | error e =>
      rw [hck] at h
      exact Except.noConfusion h
    | ok modified' =>
      rw [hck] at h
      cases h
      exact Or.inr ⟨_, rfl⟩

theorem applyCategories_isMap {slice : MgmtSlice} {year : Int} {cid : String} :
    ∀ (cds : List (String × List (String × String)))
      (st st' : Value × List (List String) × List (String × String) × List WarnEntry),
      applyCategories slice year cid st cds = .ok st' →
      (∃ m, st.1 = .map m) → ∃ m, st'.1 = .map m := by
  intro cds
  induction cds with
  | nil =>
    intro st st' h hm
    rw [applyCategories] at h
    cases h
    exact hm
  | cons cd rest ih =>
    intro st st' h hm
    rw [applyCategories] at h
    cases hstep : applyCategory slice year cid st cd with
    | error e => rw [hstep] at h; exact Except.noConfusion h
    | ok st₁ =>
      rw [hstep] at h
      refine ih st₁ st' h ?_
      rcases applyCategory_shape hstep with rfl | ⟨np, hnp⟩
      · exact hm
      · rw [hnp]
        exact update_dictionary_isMap np st.1 hm

/-- The per-case body, on success, returns a mapping that carries the
injected case name (looked up in the name table), model year, and first
planning year. -/
theorem processCase_post {slice : MgmtSlice}
    {catDicts : List (String × List (String × String))}
    {nameMap : List (String × String)} {base : List (String × Value)}
    {startYear year : Int} {warns warns' : List (String × String)}
    {cid : String} {s : Value} {log : List WarnEntry}
    (h : processCase slice catDicts nameMap base startYear year warns cid =
      .ok (s, warns', log)) :
    ∃ nm, lookupKey nameMap cid = some nm ∧
      vget s "case_name" = some (.str nm) ∧
      vget s "model_year" = some (.int year) ∧
      vget s "model_first_planning_year" = some (.int startYear) := by
  unfold processCase at h
  cases hac : applyCategories slice year cid
      (initialCaseSettings slice base cid, [], warns, []) catDicts with
  | error e => rw [hac] at h; exact Except.noConfusion h
  | ok st' =>
    rw [hac] at h
    obtain ⟨s₂, modified, w₂, lg⟩ := st'
    cases hnm : lookupKey nameMap cid with
    | none =>
      simp only [hnm] at h
      exact Except.noConfusion h
    | some nm =>
      simp only [hnm] at h
      cases h
      have hm₂ : ∃ m, s₂ = .map m :=
        applyCategories_isMap catDicts _ _ hac
          (initialCaseSettings_isMap slice base cid)
      have hm₃ := vset_isMap hm₂ "model_first_planning_year" (.int startYear)
      have hm₄ := vset_isMap hm₃ "model_year" (.int year)
      refine ⟨nm, rfl, vget_vset_self hm₄ _ _, ?_, ?_⟩
      · rw [vget_vset_ne _ _ (by decide)]
        exact vget_vset_self hm₃ _ _
      · rw [vget_vset_ne _ _ (by decide), vget_vset_ne _ _ (by decide)]
        exact vget_vset_self hm₂ _ _

theorem processCases_mem {slice : MgmtSlice}
    {catDicts : List (String × List (String × String))}
    {nameMap : List (String × String)} {base : List (String × Value)}
    {startYear year : Int} :
    ∀ (cids : List String)
      (acc out : List (String × Value) × List (String × String) × List WarnEntry),
      processCases slice catDicts nameMap base startYear year acc cids = .ok out →
      ∀ p ∈ out.1, p ∈ acc.1 ∨
        ∃ w w' lg, processCase slice catDicts nameMap base startYear year w p.1 =
          .ok (p.2, w', lg) := by
  intro cids
  induction cids with
  | nil =>
    intro acc out h p hp
    rw [processCases] at h
    cases h
    exact Or.inl hp
  | cons cid cids ih =>
    intro acc out h p hp
    obtain ⟨res, warns, log⟩ := acc
    rw [processCases] at h
    cases hstep : processCase slice catDicts nameMap base startYear year
        warns cid with
    | error e => rw [hstep] at h; exact Except.noConfusion h
    | ok q =>
      obtain ⟨sv, warns', clog⟩ := q
      rw [hstep] at h
      rcases ih _ out h p hp with hin | hfound
      · rcases List.mem_append.mp hin with hin' | hin'
        · exact Or.inl hin'
        · rw [List.mem_singleton] at hin'
          subst hin'
          exact Or.inr ⟨warns, warns', clog, hstep⟩
      · exact Or.inr hfound

theorem goYears_mem {inp : ScenarioInput} :
    ∀ (periods : List (Int × Int))
      (acc : List (Int × List (String × Value)) × List WarnEntry)
      (res : List (Int × List (String × Value))) (log : List WarnEntry),
      goYears inp periods acc = .ok (res, log) →
      ∀ yc ∈ res, yc ∈ acc.1 ∨
        ∃ startYear pc,
          processCases ((lookupKey inp.settings_management yc.1).getD emptySlice)
            (catDictsFor inp.rows inp.categories yc.1) inp.case_id_name_map
            inp.base startYear yc.1 ([], [], []) (caseIdsFor inp.rows yc.1) =
          .ok pc ∧ yc.2 = pc.1 := by
  intro periods
  induction periods with
  | nil =>
    intro acc res log h yc hyc
    obtain ⟨a, lg⟩ := acc
    rw [goYears] at h
    cases h
    exact Or.inl hyc
  | cons p rest ih =>
    intro acc res log h yc hyc
    obtain ⟨year, startYear⟩ := p
    obtain ⟨a, lg⟩ := acc
    rw [goYears] at h
    cases hstep : processCases
        ((lookupKey inp.settings_management year).getD emptySlice)
        (catDictsFor inp.rows inp.categories year) inp.case_id_name_map
        inp.base startYear year ([], [], []) (caseIdsFor inp.rows year) with
    | error e => rw [hstep] at h; exact Except.noConfusion h
    | ok q =>
      obtain ⟨cases', warnsF, ylog⟩ := q
      rw [hstep] at h
      rcases ih _ res log h yc hyc with hin | hfound
      · rcases List.mem_append.mp hin with hin' | hin'
        · exact Or.inl hin'
        · rw [List.mem_singleton] at hin'
          subst hin'
          exact Or.inr ⟨startYear, (cases', warnsF, ylog), hstep, rfl⟩
      · exact Or.inr hfound

/-- C8 example: case id `p2` appears in the scenario definitions for
2030 (with no value for the `fuel` category, so its category lookup is
silently skipped) but is missing from the case-name table. -/
def nameCexInput : ScenarioInput :=
  { base := [],
    model_periods := some [(2025, 2030)],
    model_year_list := none,
    model_first_planning_year_list := none,
    settings_management := [],
    case_id_name_map := [("p1", "Base")],
    categories := ["fuel"],
    rows := [⟨"p1", 2030, [("fuel", "high")]⟩, ⟨"p2", 2030, []⟩] }

/-- C8 (confirmed).  A case id missing from the case-name table aborts
expansion with the name-lookup error (which the silent skip of unknown
category lookups does not swallow); and on success every resolved
settings object carries the injected `case_name` (from the name table),
`model_year`, and `model_first_planning_year`. -/
theorem claim_C8 :
    build_scenario_settings nameCexInput = .error (.caseNameNotFound "p2")
    ∧ (∀ (inp : ScenarioInput) (res : List (Int × List (String × Value)))
        (log : List WarnEntry) (year : Int)
        (cases : List (String × Value)) (cid : String) (s : Value),
        build_scenario_settings inp = .ok (res, log) →
        (year, cases) ∈ res → (cid, s) ∈ cases →
        ∃ nm startYear, lookupKey inp.case_id_name_map cid = some nm ∧
          vget s "case_name" = some (.str nm) ∧
          vget s "model_year" = some (.int year) ∧
          vget s "model_first_planning_year" = some (.int startYear)) := by
  refine ⟨rfl, ?_⟩
  intro inp res log year cases cid s hok hyc hcs
  unfold build_scenario_settings at hok
  cases hp : planningPeriods inp with
  | error e => rw [hp] at hok; exact Except.noConfusion hok
  | ok periods =>
    rw [hp] at hok
    rcases goYears_mem periods ([], []) res log hok (year, cases) hyc with
      hin | ⟨startYear, pc, hpc, hcases⟩
    · simp at hin
    · rcases processCases_mem (caseIdsFor inp.rows year) ([], [], []) pc hpc
        (cid, s) (by rw [← hcases]; exact hcs) with hin | ⟨w, w', lg, hcase⟩
      · simp at hin
      · obtain ⟨nm, hnm, h₁, h₂, h₃⟩ := processCase_post hcase
        exact ⟨nm, startYear, hnm, h₁, h₂, h₃⟩

/-- Witness input for C4/C8: one case, one planning year, one category
whose override is missing from the settings-management table. -/
def warnWitInput : ScenarioInput :=
  { base := [],
    model_periods := some [(2025, 2030)],
    model_year_list := none,
    model_first_planning_year_list := none,
    settings_management := [],
    case_id_name_map := [("p1", "Base")],
    categories := ["fuel"],
    rows := [⟨"p1", 2030, [("fuel", "high")]⟩] }

/-- The resolved settings object `warnWitInput` produces. -/
def witResolved : Value :=
  .map [("case_id", .str "p1"), ("model_first_planning_year", .int 2025),
    ("model_year", .int 2030), ("case_name", .str "Base")]

/-- C8 (witness): the success clause applied to the one-case run of
`warnWitInput`. -/
theorem claim_C8_witness :
    ∃ nm startYear,
      lookupKey warnWitInput.case_id_name_map "p1" = some nm ∧
      vget witResolved "case_name" = some (.str nm) ∧
      vget witResolved "model_year" = some (.int 2030) ∧
      vget witResolved "model_first_planning_year" = some (.int startYear) :=
  claim_C8.2 warnWitInput [(2030, [("p1", witResolved)])]
    [⟨2030, "fuel", "high", "p1"⟩] 2030 [("p1", witResolved)] "p1" witResolved
    rfl (List.mem_singleton.mpr rfl) (List.mem_singleton.mpr rfl)

/-- How many warning-log entries carry a given (category, value) pair. -/
def countPair (cat cv : String) (log : List WarnEntry) : Nat :=
  log.countP (fun e => e.category == cat && (e.value == cv))

/-- How many warning-log entries carry a given (year, category, value)
triple. -/
def countLog (year : Int) (cat cv : String) (log : List WarnEntry) : Nat :=
  log.countP (fun e => e.year == year && (e.category == cat && (e.value == cv)))

theorem countPair_append (cat cv : String) (l₁ l₂ : List WarnEntry) :
    countPair cat cv (l₁ ++ l₂) = countPair cat cv l₁ + countPair cat cv l₂ := by
  simp [countPair, List.countP_append]

theorem countLog_append (year : Int) (cat cv : String) (l₁ l₂ : List WarnEntry) :
    countLog year cat cv (l₁ ++ l₂) =
      countLog year cat cv l₁ + countLog year cat cv l₂ := by
  simp [countLog, List.countP_append]

theorem countLog_le_countPair (year : Int) (cat cv : String)
    (log : List WarnEntry) : countLog year cat cv log ≤ countPair cat cv log :=
  List.countP_mono_left (fun e _ hp => by
    simp only [Bool.and_eq_true] at hp ⊢
    exact hp.2)

theorem countLog_eq_zero_of_ne {y : Int} {cat cv : String} {log : List WarnEntry}
    (h : ∀ e ∈ log, e.year ≠ y) : countLog y cat cv log = 0 := by
  unfold countLog
  rw [List.countP_eq_zero]
  intro e he
  simp only [Bool.and_eq_true, beq_iff_eq, not_and]
  intro hc
  exact absurd hc (h e he)

/-- The warning side effect of a block of per-category steps relative to
an incoming dedup list `warns`: the dedup list only grows, the emitted
entries carry the loop year, each (category, value) pair is emitted at
most once, and an emitted pair was absent from the incoming dedup list
but is present in the outgoing one. -/
def WarnRel (year : Int) (warns warns' : List (String × String))
    (dlog : List WarnEntry) : Prop :=
  (∀ p ∈ warns, p ∈ warns') ∧
  (∀ e ∈ dlog, e.year = year) ∧
  (∀ cat cv, countPair cat cv dlog ≤ 1) ∧
  (∀ cat cv, 0 < countPair cat cv dlog →
    (cat, cv) ∉ warns ∧ (cat, cv) ∈ warns')

theorem warnRel_refl (year : Int) (warns : List (String × String)) :
    WarnRel year warns warns [] := by
  refine ⟨fun p hp => hp, by simp, fun cat cv => ?_, fun cat cv h => ?_⟩
  · simp [countPair]
  · simp [countPair] at h

theorem warnRel_trans {year : Int} {w w₁ w₂ : List (String × String)}
    {d₁ d₂ : List WarnEntry} (h₁ : WarnRel year w w₁ d₁)
    (h₂ : WarnRel year w₁ w₂ d₂) : WarnRel year w w₂ (d₁ ++ d₂) := by
  obtain ⟨hs₁, hy₁, hc₁, hp₁⟩ := h₁
  obtain ⟨hs₂, hy₂, hc₂, hp₂⟩ := h₂
  refine ⟨fun p hp => hs₂ p (hs₁ p hp), ?_, ?_, ?_⟩
  · intro e he
    rcases List.mem_append.mp he with h | h
    · exact hy₁ e h
    · exact hy₂ e h
  · intro cat cv
    rw [countPair_append]
    by_cases hb : 0 < countPair cat cv d₂
    · have hnw₁ : (cat, cv) ∉ w₁ := (hp₂ cat cv hb).1
      have ha : countPair cat cv d₁ = 0 := by
        by_contra hne
        exact hnw₁ ((hp₁ cat cv (Nat.pos_of_ne_zero hne)).2)
      have := hc₂ cat cv
      omega
    · have hb0 : countPair cat cv d₂ = 0 := Nat.eq_zero_of_not_pos hb
      have := hc₁ cat cv
      omega
  · intro cat cv hpos
    rw [countPair_append] at hpos
    by_cases ha : 0 < countPair cat cv d₁
    · obtain ⟨hnw, hw₁⟩ := hp₁ cat cv ha
      exact ⟨hnw, hs₂ _ hw₁⟩
    · have hb : 0 < countPair cat cv d₂ := by omega
      obtain ⟨hnw₁, hw₂⟩ := hp₂ cat cv hb
      exact ⟨fun hmem => hnw₁ (hs₁ _ hmem), hw₂⟩

theorem applyCategory_warnrel {slice : MgmtSlice} {year : Int} {cid : String}
    {st st' : Value × List (List String) × List (String × String) × List WarnEntry}
    {cd : String × List (String × String)}
    (h : applyCategory slice year cid st cd = .ok st') :
    ∃ dlog, st'.2.2.2 = st.2.2.2 ++ dlog ∧ WarnRel year st.2.2.1 st'.2.2.1 dlog := by
  unfold applyCategory at h
  cases hl : lookupKey cd.2 cid with
  | none =>
    simp only [hl] at h
    cases h
    exact ⟨[], by simp, warnRel_refl _ _⟩
  | some cv =>
    simp only [hl] at h
    cases hck : checkKeys cid st.2.1
        (flattenKeys ((lookupKey ((lookupKey slice.categories cd.1).getD [])
          cv).getD [])) with
    | error e =>
      rw [hck] at h
      exact Except.noConfusion h
    | ok modified' =>
      rw [hck] at h
      cases h
      by_cases hc : ((lookupKey ((lookupKey slice.categories cd.1).getD [])
          cv).getD []).isEmpty = true ∧ (cd.1, cv) ∉ st.2.2.1
      · simp only [if_pos hc]
        refine ⟨[⟨year, cd.1, cv, cid⟩], rfl, fun p hp => List.mem_append_left _ hp,
          ?_, ?_, ?_⟩
        · intro e he
          rw [List.mem_singleton] at he
          subst he
          rfl
        · intro cat cv'
          unfold countPair
          rw [List.countP_cons, List.countP_nil]
          split
          · omega
          · omega
        · intro cat cv' hpos
          unfold countPair at hpos
          rw [List.countP_cons, List.countP_nil] at hpos
          split at hpos
          · next hp =>
            simp only [Bool.and_eq_true, beq_iff_eq] at hp
            obtain ⟨hcat, hval⟩ := hp
            subst hcat
            subst hval
            exact ⟨hc.2, List.mem_append_right _ (List.mem_singleton.mpr rfl)⟩
          · omega
      · simp only [if_neg hc]
        exact ⟨[], by simp, warnRel_refl _ _⟩

theorem applyCategories_warnrel {slice : MgmtSlice} {year : Int} {cid : String} :
    ∀ (cds : List (String × List (String × String)))
      (st st' : Value × List (List String) × List (String × String) × List WarnEntry),
      applyCategories slice year cid st cds = .ok st' →
      ∃ dlog, st'.2.2.2 = st.2.2.2 ++ dlog ∧
        WarnRel year st.2.2.1 st'.2.2.1 dlog := by
  intro cds
  induction cds with
  | nil =>
    intro st st' h
    rw [applyCategories] at h
    cases h
    exact ⟨[], by simp, warnRel_refl _ _⟩
  | cons cd rest ih =>
    intro st st' h
    rw [applyCategories] at h
    cases hstep : applyCategory slice year cid st cd with
    | error e => rw [hstep] at h; exact Except.noConfusion h
    | ok st₁ =>
      rw [hstep] at h
      obtain ⟨d₁, hd₁, hw₁⟩ := applyCategory_warnrel hstep
      obtain ⟨d₂, hd₂, hw₂⟩ := ih st₁ st' h
      exact ⟨d₁ ++ d₂, by rw [hd₂, hd₁, List.append_assoc], warnRel_trans hw₁ hw₂⟩

theorem processCase_warnrel {slice : MgmtSlice}
    {catDicts : List (String × List (String × String))}
    {nameMap : List (String × String)} {base : List (String × Value)}
    {startYear year : Int} {warns warns' : List (String × String)}
    {cid : String} {s : Value} {clog : List WarnEntry}
    (h : processCase slice catDicts nameMap base startYear year warns cid =
      .ok (s, warns', clog)) :
    WarnRel year warns warns' clog := by
  unfold processCase at h
  cases hac : applyCategories slice year cid
      (initialCaseSettings slice base cid, [], warns, []) catDicts with
  | error e => rw [hac] at h; exact Except.noConfusion h
  | ok st' =>
    rw [hac] at h
    obtain ⟨s₂, m₂, w₂, lg₂⟩ := st'
    obtain ⟨dlog, hd, hw⟩ := applyCategories_warnrel catDicts _ _ hac
    cases hnm : lookupKey nameMap cid with
    | none =>
      simp only [hnm] at h
      exact Except.noConfusion h
    | some nm =>
      simp only [hnm] at h
      cases h
      simp only [List.nil_append] at hd
      rw [hd]
      exact hw

/-- The per-year invariant carried by `processCases`: every accumulated
log entry has the loop year, each (category, value) pair appears at
most once, and every logged pair is recorded in the threaded dedup
list. -/
def YearInv (year : Int) (warns : List (String × String))
    (log : List WarnEntry) : Prop :=
  (∀ e ∈ log, e.year = year) ∧
  ∀ cat cv, countPair cat cv log ≤ 1 ∧
    (0 < countPair cat cv log → (cat, cv) ∈ warns)

theorem yearInv_step {year : Int} {warns warns' : List (String × String)}
    {log clog : List WarnEntry} (hinv : YearInv year warns log)
    (hrel : WarnRel year warns warns' clog) :
    YearInv year warns' (log ++ clog) := by
  obtain ⟨hy, hcnt⟩ := hinv
  obtain ⟨hs, hyd, hcd, hpd⟩ := hrel
  constructor
  · intro e he
    rcases List.mem_append.mp he with h | h
    · exact hy e h
    · exact hyd e h
  · intro cat cv
    rw [countPair_append]
    obtain ⟨hle, hmem⟩ := hcnt cat cv
    constructor
    · by_cases hb : 0 < countPair cat cv clog
      · have hnw : (cat, cv) ∉ warns := (hpd cat cv hb).1
        have ha : countPair cat cv log = 0 := by
          by_contra hne
          exact hnw (hmem (Nat.pos_of_ne_zero hne))
        have := hcd cat cv
        omega
      · have : countPair cat cv clog = 0 := Nat.eq_zero_of_not_pos hb
        omega
    · intro hpos
      by_cases ha : 0 < countPair cat cv log
      · exact hs _ (hmem ha)
      · have hb : 0 < countPair cat cv clog := by omega
        exact (hpd cat cv hb).2

theorem processCases_yearInv {slice : MgmtSlice}
    {catDicts : List (String × List (String × String))}
    {nameMap : List (String × String)} {base : List (String × Value)}
    {startYear year : Int} :
    ∀ (cids : List String)
      (acc out : List (String × Value) × List (String × String) × List WarnEntry),
      processCases slice catDicts nameMap base startYear year acc cids = .ok out →
      YearInv year acc.2.1 acc.2.2 → YearInv year out.2.1 out.2.2 := by
  intro cids
  induction cids with
  | nil =>
    intro acc out h hinv
    rw [processCases] at h
    cases h
    exact hinv
  | cons cid cids ih =>
    intro acc out h hinv
    obtain ⟨res, warns, log⟩ := acc
    rw [processCases] at h
    cases hstep : processCase slice catDicts nameMap base startYear year
        warns cid with
    | error e => rw [hstep] at h; exact Except.noConfusion h
    | ok q =>
      obtain ⟨s, warns₂, clog⟩ := q
      rw [hstep] at h
      exact ih _ out h (yearInv_step hinv (processCase_warnrel hstep))

theorem setKey_keys_nodup {κ α : Type} [DecidableEq κ] {l : List (κ × α)}
    (h : (l.map Prod.fst).Nodup) (k : κ) (v : α) :
    ((setKey l k v).map Prod.fst).Nodup := by
  cases hs : lookupKey l k with
  | some w =>
    rw [setKey_map_fst (by rw [hs]; rfl) v]
    exact h
  | none =>
    rw [setKey_of_lookup_none hs v, List.map_append]
    simp only [List.map_cons, List.map_nil]
    rw [List.nodup_append]
    refine ⟨h, List.nodup_singleton k, ?_⟩
    intro a ha hb
    rw [List.mem_singleton] at hb
    rw [hb] at ha
    have hsome : (lookupKey l k).isSome = true := (lookupKey_isSome_iff l k).mpr ha
    rw [hs] at hsome
    exact Bool.noConfusion hsome

theorem dictOf_keys_nodup_aux {κ α : Type} [DecidableEq κ] :
    ∀ (l acc : List (κ × α)), (acc.map Prod.fst).Nodup →
      ((l.foldl (fun acc kv => setKey acc kv.1 kv.2) acc).map Prod.fst).Nodup := by
  intro l
  induction l with
  | nil =>
    intro acc h
    exact h
  | cons kv rest ih =>
    intro acc h
    rw [List.foldl_cons]
    exact ih _ (setKey_keys_nodup h kv.1 kv.2)

theorem dictOf_keys_nodup {κ α : Type} [DecidableEq κ] (l : List (κ × α)) :
    ((dictOf l).map Prod.fst).Nodup :=
  dictOf_keys_nodup_aux l [] (by simp)

theorem planningPeriods_years_nodup {inp : ScenarioInput}
    {periods : List (Int × Int)} (h : planningPeriods inp = .ok periods) :
    (periods.map Prod.fst).Nodup := by
  unfold planningPeriods at h
  split at h
  · cases h
    exact dictOf_keys_nodup _
  · split at h
    · cases h
      exact dictOf_keys_nodup _
    · exact Except.noConfusion h

theorem goYears_warninv {inp : ScenarioInput} :
    ∀ (periods : List (Int × Int)) (acc : List (Int × List (String × Value)))
      (log : List WarnEntry) (res : List (Int × List (String × Value)))
      (flog : List WarnEntry),
      goYears inp periods (acc, log) = .ok (res, flog) →
      (periods.map Prod.fst).Nodup →
      (∀ e ∈ log, e.year ∉ periods.map Prod.fst) →
      (∀ y cat cv, countLog y cat cv log ≤ 1) →
      ∀ y cat cv, countLog y cat cv flog ≤ 1 := by
  intro periods
  induction periods with
  | nil =>
    intro acc log res flog h _ _ hcount
    rw [goYears] at h
    cases h
    exact hcount
  | cons p rest ih =>
    intro acc log res flog h hnd hnotin hcount
    obtain ⟨year, startYear⟩ := p
    rw [goYears] at h
    cases hstep : processCases
        ((lookupKey inp.settings_management year).getD emptySlice)
        (catDictsFor inp.rows inp.categories year) inp.case_id_name_map
        inp.base startYear year ([], [], []) (caseIdsFor inp.rows year) with
    | error e => rw [hstep] at h; exact Except.noConfusion h
    | ok q =>
      obtain ⟨cases', warnsF, ylog⟩ := q
      rw [hstep] at h
      have hinv := processCases_yearInv (caseIdsFor inp.rows year) ([], [], [])
        (cases', warnsF, ylog) hstep
        ⟨by simp, fun cat cv => by simp [countPair]⟩
      have hylog_year : ∀ e ∈ ylog, e.year = year := hinv.1
      have hylog_pair : ∀ cat cv, countPair cat cv ylog ≤ 1 :=
        fun cat cv => (hinv.2 cat cv).1
      have hnd₂ : (rest.map Prod.fst).Nodup := by
        simp only [List.map_cons] at hnd
        exact (List.nodup_cons.mp hnd).2
      have hyear_notin : year ∉ rest.map Prod.fst := by
        simp only [List.map_cons] at hnd
        exact (List.nodup_cons.mp hnd).1
      refine ih _ _ res flog h hnd₂ ?_ ?_
      · intro e he
        rcases List.mem_append.mp he with h₁ | h₁
        · intro hc
          refine hnotin e h₁ ?_
          simp only [List.map_cons]
          exact List.mem_cons_of_mem _ hc
        · rw [hylog_year e h₁]
          exact hyear_notin
      · intro y cat cv
        rw [countLog_append]
        by_cases hy : y = year
        · have hlog0 : countLog y cat cv log = 0 := by
            apply countLog_eq_zero_of_ne
            intro e he hc
            refine hnotin e he ?_
            simp only [List.map_cons]
            rw [hc, hy]
            exact List.mem_cons_self _ _
          have h₁ := countLog_le_countPair y cat cv ylog
          have h₂ := hylog_pair cat cv
          omega
        · have hylog0 : countLog y cat cv ylog = 0 := by
            apply countLog_eq_zero_of_ne
            intro e he
            rw [hylog_year e he]
            exact fun hc => hy hc.symm
          have := hcount y cat cv
          omega

/-- C4 (amended).  The missing-override warning is deduplicated per
planning year, not across the whole run: within one expansion run each
(year, category, value label) triple is logged at most once, and a
missing override is treated as empty, leaving the case settings and the
modified-keys list unchanged for that category. -/
theorem claim_C4_amended :
    (∀ (inp : ScenarioInput) (res : List (Int × List (String × Value)))
      (log : List WarnEntry) (year : Int) (cat cv : String),
      build_scenario_settings inp = .ok (res, log) →
      countLog year cat cv log ≤ 1)
    ∧ (∀ (slice : MgmtSlice) (year : Int) (cid case_value : String)
        (s : Value) (modified : List (List String))
        (warns : List (String × String)) (log : List WarnEntry)
        (cd : String × List (String × String)),
        lookupKey cd.2 cid = some case_value →
        lookupKey ((lookupKey slice.categories cd.1).getD []) case_value = none →
        ∃ warns₂ log₂,
          applyCategory slice year cid (s, modified, warns, log) cd =
            .ok (s, modified, warns₂, log₂)) := by
  constructor
  · intro inp res log year cat cv hok
    unfold build_scenario_settings at hok
    cases hp : planningPeriods inp with
    | error e => rw [hp] at hok; exact Except.noConfusion hok
    | ok periods =>
      rw [hp] at hok
      exact goYears_warninv periods [] [] res log hok
        (planningPeriods_years_nodup hp) (by simp)
        (by intro y c v; simp [countLog]) year cat cv
  · intro slice year cid case_value s modified warns log cd h₁ h₂
    unfold applyCategory
    simp only [h₁, h₂, Option.getD_none, flattenKeys, checkKeys,
      update_dictionary_nil]
    exact ⟨_, _, rfl⟩

/-- C4 counterexample input: the same case and the same missing
(category, value) override pair in two different planning years. -/
def warnCexInput : ScenarioInput :=
  { base := [],
    model_periods := some [(2025, 2030), (2030, 2035)],
    model_year_list := none,
    model_first_planning_year_list := none,
    settings_management := [],
    case_id_name_map := [("p1", "Base")],
    categories := ["fuel"],
    rows := [⟨"p1", 2030, [("fuel", "high")]⟩, ⟨"p1", 2035, [("fuel", "high")]⟩] }

/-- The warning log of a successful expansion run (empty on failure). -/
def runWarnLog (inp : ScenarioInput) : List WarnEntry :=
  match build_scenario_settings inp with
  | .ok (_, log) => log
  | .error _ => []

/-- C4 (counterexample).  The run over `warnCexInput` succeeds and logs
the missing override for the pair (fuel, high) twice — once per
planning year — refuting "at most once per distinct (category, value
label) pair across the whole run": the dedup list is reset at the start
of every planning year. -/
theorem claim_C4_counterexample :
    (build_scenario_settings warnCexInput).isOk = true ∧
    countPair "fuel" "high" (runWarnLog warnCexInput) = 2 :=
  ⟨rfl, rfl⟩

/-- C4 (witness): the per-run bound applied to the one-year run of
`warnWitInput`, and the empty-override no-op applied to its category
step. -/
theorem claim_C4_witness :
    countLog 2030 "fuel" "high" [⟨2030, "fuel", "high", "p1"⟩] ≤ 1 ∧
    ∃ warns₂ log₂,
      applyCategory emptySlice 2030 "p1"
          (.map [("case_id", .str "p1")], [], [], []) ("fuel", [("p1", "high")]) =
        .ok (.map [("case_id", .str "p1")], [], warns₂, log₂) :=
  ⟨claim_C4_amended.1 warnWitInput [(2030, [("p1", witResolved)])]
      [⟨2030, "fuel", "high", "p1"⟩] 2030 "fuel" "high" rfl,
    claim_C4_amended.2 emptySlice 2030 "p1" "high"
      (.map [("case_id", .str "p1")]) [] [] [] ("fuel", [("p1", "high")]) rfl rfl⟩

end PG
